import Mathlib

/-!
Verification of the SyncFolders program (src/main.py).

The program mirrors a source directory tree onto a replica tree, one
synchronization cycle per interval tick.  We embed the relevant parts of
src/main.py shallowly:

* A directory tree is modelled as a finite map from relative paths to
  entries (`FS`).  A relative path is its list of components
  (`RelPath`); components never contain the path separator, so
  str(p).count(os.sep) equals the number of components minus one.
* A tree entry is a real directory, a regular file (abstracted as its
  stat modification time plus its byte content; its size is the length
  of the content), or a symbolic link carrying its target string.
* The snapshot produced by iter_dir on a well-formed on-disk tree is
  exactly the set of recorded relative paths of the map, so snapshots
  are taken as `fsPaths`; the walk itself is also embedded (iter_dir
  below) and theorem iter_dir_eq_fsPaths proves the two agree on
  well-formed trees.
* Fallible filesystem mutations return `Option`/pairs with an event
  trace mirroring the logger.info / logger.error lines.
-/

namespace SyncFolders

/-- A relative path, as its list of components (no separators inside a
component). -/
abbrev RelPath := List String

/-- The kind and payload of one tree entry: a real directory, a regular
file (stat mtime and byte content; its stat size is `content.length`),
or a symbolic link with its target string. -/
inductive Entry where
  | dir : Entry
  | file (mtime : Nat) (content : String) : Entry
  | symlink (target : String) : Entry
deriving DecidableEq, Repr, Inhabited

/-- A directory tree: a finite map from relative paths to entries,
represented as an association list. -/
abbrev FS := List (RelPath × Entry)

/-- Look up the entry recorded at path `p`. -/
def fsFind (fs : FS) (p : RelPath) : Option Entry :=
  match fs with
  | [] => none
  | e :: rest => if e.1 = p then some e.2 else fsFind rest p

/-- All recorded relative paths of the tree (the snapshot `iter_dir`
returns for a well-formed tree). -/
def fsPaths (fs : FS) : List RelPath := fs.map Prod.fst

/-- Remove the binding at path `p` (os.unlink / os.rmdir on the model). -/
def fsErase (fs : FS) (p : RelPath) : FS :=
  fs.filter (fun e => decide (e.1 ≠ p))

/-- Write entry `e` at path `p`, replacing any previous binding. -/
def fsInsert (fs : FS) (p : RelPath) (e : Entry) : FS :=
  (p, e) :: fsErase fs p

/-- Remove every binding whose path lies in `l`. -/
def fsRemoveAll (fs : FS) (l : List RelPath) : FS :=
  fs.filter (fun e => decide (e.1 ∉ l))

theorem fsFind_eq_some_mem {fs : FS} {p : RelPath} {e : Entry}
    (h : fsFind fs p = some e) : p ∈ fsPaths fs := by
  induction fs with
  | nil => simp [fsFind] at h
  | cons hd tl ih =>
    rw [fsFind] at h
    by_cases hh : hd.1 = p
    · simp [fsPaths, hh.symm]
    · simp [hh] at h
      simp [fsPaths]
      exact Or.inr (by simpa [fsPaths] using ih h)

theorem fsFind_isSome_of_mem {fs : FS} {p : RelPath}
    (h : p ∈ fsPaths fs) : (fsFind fs p).isSome := by
  induction fs with
  | nil => simp [fsPaths] at h
  | cons hd tl ih =>
    rw [fsFind]
    by_cases hh : hd.1 = p
    · simp [hh]
    · simp [hh]
      apply ih
      simp [fsPaths] at h ⊢
      rcases h with h | h
      · exact absurd h.symm (by simpa using hh)
      · simpa [fsPaths] using h

theorem fsFind_eq_none_of_not_mem {fs : FS} {p : RelPath}
    (h : p ∉ fsPaths fs) : fsFind fs p = none := by
  cases hf : fsFind fs p with
  | none => rfl
  | some e => exact absurd (fsFind_eq_some_mem hf) h

theorem not_mem_of_fsFind_eq_none {fs : FS} {p : RelPath}
    (h : fsFind fs p = none) : p ∉ fsPaths fs := by
  intro hm
  have := fsFind_isSome_of_mem hm
  rw [h] at this
  simp at this

/-- Finding through a key-predicate filter. -/
theorem fsFind_filter (fs : FS) (pred : RelPath → Bool) (p : RelPath) :
    fsFind (fs.filter (fun e => pred e.1)) p =
      if pred p then fsFind fs p else none := by
  induction fs with
  | nil => simp [fsFind]
  | cons hd tl ih =>
    by_cases hh : hd.1 = p
    · subst hh
      by_cases hp : pred hd.1
      · simp [hp, fsFind]
      · simp [List.filter, hp, ih, fsFind]
    · by_cases hp : pred hd.1
      · simp [List.filter, hp, fsFind, hh, ih]
      · simp [List.filter, hp, fsFind, hh, ih]

theorem fsFind_erase_self (fs : FS) (p : RelPath) :
    fsFind (fsErase fs p) p = none := by
  have := fsFind_filter fs (fun q => decide (q ≠ p)) p
  simpa [fsErase] using this

theorem fsFind_erase_ne (fs : FS) {p q : RelPath} (h : q ≠ p) :
    fsFind (fsErase fs p) q = fsFind fs q := by
  have := fsFind_filter fs (fun r => decide (r ≠ p)) q
  simpa [fsErase, h] using this

theorem fsFind_insert_self (fs : FS) (p : RelPath) (e : Entry) :
    fsFind (fsInsert fs p e) p = some e := by
  simp [fsInsert, fsFind]

theorem fsFind_insert_ne (fs : FS) {p q : RelPath} (e : Entry) (h : q ≠ p) :
    fsFind (fsInsert fs p e) q = fsFind fs q := by
  simp [fsInsert, fsFind, Ne.symm h]
  exact fsFind_erase_ne fs h

theorem fsFind_removeAll (fs : FS) (l : List RelPath) (p : RelPath) :
    fsFind (fsRemoveAll fs l) p = if p ∈ l then none else fsFind fs p := by
  have := fsFind_filter fs (fun q => decide (q ∉ l)) p
  by_cases hp : p ∈ l
  · simpa [fsRemoveAll, hp] using this
  · simpa [fsRemoveAll, hp] using this

/-- Sort key of sort_paths_set_by_sep: str(p).count(os.sep).  A relative
path of n separator-free components prints with n - 1 separators. -/
def sepCount (p : RelPath) : Nat := p.length - 1

/-- Comparison used by the ascending sort (reverse=False). -/
def sepLe (a b : RelPath) : Prop := sepCount a ≤ sepCount b

/-- Comparison realised by the descending sort (reverse=True). -/
def sepGe (a b : RelPath) : Prop := sepCount b ≤ sepCount a

instance : DecidableRel sepLe := fun _ _ => Nat.decLe _ _

instance : DecidableRel sepGe := fun _ _ => Nat.decLe _ _

instance : IsTotal RelPath sepLe := ⟨fun a b => Nat.le_total (sepCount a) (sepCount b)⟩

instance : IsTrans RelPath sepLe := ⟨fun _ _ _ h1 h2 => Nat.le_trans h1 h2⟩

instance : IsTotal RelPath sepGe := ⟨fun a b => Nat.le_total (sepCount b) (sepCount a)⟩

instance : IsTrans RelPath sepGe := ⟨fun _ _ _ h1 h2 => Nat.le_trans h2 h1⟩

/-- sort_paths_set_by_sep (main.py:70-79): sorted(paths_set, key=lambda p:
str(p).count(os.sep), reverse=reverse), over some enumeration `l` of the
set. -/
def sort_paths_set_by_sep (l : List RelPath) (reverse : Bool) : List RelPath :=
  if reverse then List.insertionSort sepGe l else List.insertionSort sepLe l

/-- Strict ancestor relation: `a` is a proper nonempty front of the
component list of `d` (equivalently, `d` is a strict descendant of `a`). -/
def strictAnc (a d : RelPath) : Prop := d.take a.length = a ∧ a ≠ d

instance (a d : RelPath) : Decidable (strictAnc a d) := by
  unfold strictAnc; infer_instance

theorem strictAnc.length_lt {a d : RelPath} (h : strictAnc a d) :
    a.length < d.length := by
  obtain ⟨ht, hne⟩ := h
  have hlen : min a.length d.length = a.length := by
    have := congrArg List.length ht
    simpa using this
  rcases Nat.lt_or_ge a.length d.length with hlt | hge
  · exact hlt
  · exfalso
    have : d.take a.length = d := List.take_of_length_le hge
    exact hne (by rw [this] at ht; exact ht.symm)

theorem strictAnc.sepCount_lt {a d : RelPath} (h : strictAnc a d)
    (ha : a ≠ []) : sepCount a < sepCount d := by
  have hlt := h.length_lt
  have ha1 : 1 ≤ a.length := by
    cases a with
    | nil => exact absurd rfl ha
    | cons x xs => simp [Nat.succ_le_succ, Nat.zero_le]
  unfold sepCount
  omega

/-- C3: sort_paths_set_by_sep returns a permutation of its input, ordered
by separator count: ascending for reverse=false, descending for
reverse=true.  Consequently (for nonempty relative paths) in the
descending order every strict descendant precedes its ancestor (no
earlier element is a strict ancestor of a later one), and in the
ascending order every ancestor precedes its strict descendants (no
earlier element is a strict descendant of a later one). -/
theorem sort_paths_set_by_sep_spec (l : List RelPath)
    (hne : ∀ p ∈ l, p ≠ []) :
    List.Perm (sort_paths_set_by_sep l false) l ∧
    List.Perm (sort_paths_set_by_sep l true) l ∧
    List.Sorted sepLe (sort_paths_set_by_sep l false) ∧
    List.Sorted sepGe (sort_paths_set_by_sep l true) ∧
    List.Pairwise (fun x y => ¬ strictAnc y x) (sort_paths_set_by_sep l false) ∧
    List.Pairwise (fun x y => ¬ strictAnc x y) (sort_paths_set_by_sep l true) := by
  have hpa : List.Perm (sort_paths_set_by_sep l false) l := by
    simpa [sort_paths_set_by_sep] using List.perm_insertionSort sepLe l
  have hpd : List.Perm (sort_paths_set_by_sep l true) l := by
    simpa [sort_paths_set_by_sep] using List.perm_insertionSort sepGe l
  have hsa : List.Sorted sepLe (sort_paths_set_by_sep l false) := by
    simpa [sort_paths_set_by_sep] using List.sorted_insertionSort sepLe l
  have hsd : List.Sorted sepGe (sort_paths_set_by_sep l true) := by
    simpa [sort_paths_set_by_sep] using List.sorted_insertionSort sepGe l
  refine ⟨hpa, hpd, hsa, hsd, ?_, ?_⟩
  · refine List.Pairwise.imp_of_mem ?_ hsa
    intro a b hma hmb hr hbad
    have hb : b ≠ [] := hne b (hpa.subset hmb)
    have := hbad.sepCount_lt hb
    exact absurd hr (by unfold sepLe; omega)
  · refine List.Pairwise.imp_of_mem ?_ hsd
    intro a b hma hmb hr hbad
    have ha : a ≠ [] := hne a (hpd.subset hma)
    have := hbad.sepCount_lt ha
    exact absurd hr (by unfold sepGe; omega)

/-- Witness for sort_paths_set_by_sep_spec at a concrete path set. -/
theorem sort_paths_set_by_sep_spec_witness :
    (∀ p ∈ ([["a"], ["a", "b"], ["c"], ["a", "b", "c"]] : List RelPath), p ≠ []) ∧
    (List.Perm
      (sort_paths_set_by_sep [["a"], ["a", "b"], ["c"], ["a", "b", "c"]] false)
      [["a"], ["a", "b"], ["c"], ["a", "b", "c"]] ∧
     List.Perm
      (sort_paths_set_by_sep [["a"], ["a", "b"], ["c"], ["a", "b", "c"]] true)
      [["a"], ["a", "b"], ["c"], ["a", "b", "c"]] ∧
     List.Sorted sepLe
      (sort_paths_set_by_sep [["a"], ["a", "b"], ["c"], ["a", "b", "c"]] false) ∧
     List.Sorted sepGe
      (sort_paths_set_by_sep [["a"], ["a", "b"], ["c"], ["a", "b", "c"]] true) ∧
     List.Pairwise (fun x y => ¬ strictAnc y x)
      (sort_paths_set_by_sep [["a"], ["a", "b"], ["c"], ["a", "b", "c"]] false) ∧
     List.Pairwise (fun x y => ¬ strictAnc x y)
      (sort_paths_set_by_sep [["a"], ["a", "b"], ["c"], ["a", "b", "c"]] true)) :=
  ⟨by decide, by
    have h := sort_paths_set_by_sep_spec
      [["a"], ["a", "b"], ["c"], ["a", "b", "c"]] (by decide)
    exact h⟩

/-- only_in_rep = rep_rel_paths - src_rel_paths (main.py:205). -/
def only_in_rep (srcSet repSet : List RelPath) : List RelPath :=
  repSet.filter (fun p => decide (p ∉ srcSet))

/-- only_in_src = src_rel_paths - rep_rel_paths (main.py:206). -/
def only_in_src (srcSet repSet : List RelPath) : List RelPath :=
  srcSet.filter (fun p => decide (p ∉ repSet))

/-- common_rel_paths = src_rel_paths.intersection(rep_rel_paths)
(main.py:215). -/
def common_rel_paths (srcSet repSet : List RelPath) : List RelPath :=
  srcSet.filter (fun p => decide (p ∈ repSet))

/-- C2: the three derived sets are pure set algebra over the two
snapshots (rep_only = rep - src, src_only = src - rep, common =
src ∩ rep), they are pairwise disjoint, and their union is the union of
the two snapshots.  The defining functions access no state beyond their
two list arguments. -/
theorem diff_sets_partition (srcSet repSet : List RelPath) (p : RelPath) :
    (p ∈ only_in_rep srcSet repSet ↔ p ∈ repSet ∧ p ∉ srcSet) ∧
    (p ∈ only_in_src srcSet repSet ↔ p ∈ srcSet ∧ p ∉ repSet) ∧
    (p ∈ common_rel_paths srcSet repSet ↔ p ∈ srcSet ∧ p ∈ repSet) ∧
    ¬ (p ∈ only_in_rep srcSet repSet ∧ p ∈ only_in_src srcSet repSet) ∧
    ¬ (p ∈ only_in_rep srcSet repSet ∧ p ∈ common_rel_paths srcSet repSet) ∧
    ¬ (p ∈ only_in_src srcSet repSet ∧ p ∈ common_rel_paths srcSet repSet) ∧
    ((p ∈ only_in_rep srcSet repSet ∨ p ∈ only_in_src srcSet repSet ∨
      p ∈ common_rel_paths srcSet repSet) ↔ (p ∈ srcSet ∨ p ∈ repSet)) := by
  simp only [only_in_rep, only_in_src, common_rel_paths, List.mem_filter,
    decide_eq_true_eq]
  tauto

/-- One log line of the program: the logger.info mutation lines and the
logger.error failure lines of main.py with their arguments.  Note the
file-deletion failure branch of the code (main.py:111) logs the literal
message "Failed to delete symlink", the same text as the symlink
branch. -/
inductive Event where
  | removingDir (p : RelPath)
  | removingSymlink (p : RelPath) (target : String)
  | removingFile (p : RelPath)
  | errFailedRemoveDir (p : RelPath)
  | errFailedDeleteSymlink (p : RelPath)
  | creatingDir (p : RelPath)
  | creatingSymlink (p : RelPath) (target : String)
  | creatingFile (p : RelPath)
  | updatingSymlink (p : RelPath) (target : String)
  | updatingFile (p : RelPath)
deriving DecidableEq, Repr

/-- Whether any recorded entry lies strictly below `p`: the condition
under which rmdir on `p` fails with "directory not empty". -/
def fsHasDescendant (fs : FS) (p : RelPath) : Bool :=
  fs.any (fun e => decide (strictAnc p e.1))

theorem fsHasDescendant_iff (fs : FS) (p : RelPath) :
    fsHasDescendant fs p = true ↔ ∃ q ∈ fsPaths fs, strictAnc p q := by
  unfold fsHasDescendant
  rw [List.any_eq_true]
  constructor
  · rintro ⟨e, he, hd⟩
    exact ⟨e.1, List.mem_map_of_mem Prod.fst he, of_decide_eq_true hd⟩
  · rintro ⟨q, hq, hd⟩
    rcases List.mem_map.mp hq with ⟨e, he, rfl⟩
    exact ⟨e, he, decide_eq_true hd⟩

/-- The loop body of rm_files_in_set (main.py:87-112) over an already
sorted sequence.  Each path is removed according to its kind at removal
time: a real directory via rmdir (which raises when entries still lie
below it), a symlink via unlink, anything else via unlink (which raises
when nothing exists at the path).  Every attempt logs its info line
first; a failure logs its error line and re-raises, aborting the run
(`none`, nothing further processed). -/
def rmRun (fs : FS) : List RelPath → List Event × Option FS
  | [] => ([], some fs)
  | p :: rest =>
    match fsFind fs p with
    | some .dir =>
      if fsHasDescendant fs p then
        ([.removingDir p, .errFailedRemoveDir p], none)
      else
        let r := rmRun (fsErase fs p) rest
        (.removingDir p :: r.1, r.2)
    | some (.symlink t) =>
      let r := rmRun (fsErase fs p) rest
      (.removingSymlink p t :: r.1, r.2)
    | some (.file _ _) =>
      let r := rmRun (fsErase fs p) rest
      (.removingFile p :: r.1, r.2)
    | none => ([.removingFile p, .errFailedDeleteSymlink p], none)

/-- rm_files_in_set (main.py:82-112): removes every path of the set from
the base directory, processing the set deep-first
(sort_paths_set_by_sep with reverse=True). -/
def rm_files_in_set (fs : FS) (setPaths : List RelPath) :
    List Event × Option FS :=
  rmRun fs (sort_paths_set_by_sep setPaths true)

theorem rmRun_ok : ∀ (l : List RelPath) (fs : FS), l.Nodup →
    (∀ p ∈ l, p ≠ []) →
    (∀ p ∈ l, (fsFind fs p).isSome) →
    (∀ p ∈ l, fsFind fs p = some .dir →
      ∀ q, (fsFind fs q).isSome → strictAnc p q → q ∈ l) →
    List.Sorted sepGe l →
    (rmRun fs l).2 = some (fsRemoveAll fs l)
  | [], fs => by
    intro _ _ _ _ _
    simp [rmRun, fsRemoveAll, List.filter_eq_self]
  | p :: rest, fs => by
    intro hnd hne hmem hclosed hsorted
    have hsome : (fsFind fs p).isSome := hmem p (List.mem_cons_self p rest)
    have hstep : ∀ q ∈ rest, q ≠ p := by
      intro q hq
      rcases List.nodup_cons.mp hnd with ⟨hp, _⟩
      intro hqp
      exact hp (hqp ▸ hq)
    have hrec : (rmRun (fsErase fs p) rest).2 =
        some (fsRemoveAll (fsErase fs p) rest) := by
      apply rmRun_ok rest (fsErase fs p) (List.nodup_cons.mp hnd).2
      · intro q hq; exact hne q (List.mem_cons_of_mem p hq)
      · intro q hq
        rw [fsFind_erase_ne fs (hstep q hq)]
        exact hmem q (List.mem_cons_of_mem p hq)
      · intro q hq hdir r hr hanc
        rw [fsFind_erase_ne fs (hstep q hq)] at hdir
        have hrp : r ≠ p := by
          intro hrp
          rw [hrp, fsFind_erase_self] at hr
          simp at hr
        rw [fsFind_erase_ne fs hrp] at hr
        have := hclosed q (List.mem_cons_of_mem p hq) hdir r hr hanc
        rcases List.mem_cons.mp this with h | h
        · exact absurd h hrp
        · exact h
      · exact hsorted.of_cons
    have hcombine : fsRemoveAll (fsErase fs p) rest =
        fsRemoveAll fs (p :: rest) := by
      unfold fsRemoveAll fsErase
      rw [List.filter_filter]
      apply List.filter_congr
      intro e _
      by_cases h1 : e.1 = p <;> by_cases h2 : e.1 ∈ rest <;>
        simp [h1, h2]
    cases hfind : fsFind fs p with
    | none => rw [hfind] at hsome; simp at hsome
    | some entry =>
      cases entry with
      | dir =>
        have hnodesc : fsHasDescendant fs p = false := by
          by_contra hcon
          have htrue : fsHasDescendant fs p = true := by
            revert hcon; cases fsHasDescendant fs p <;> simp
          rcases (fsHasDescendant_iff fs p).mp htrue with ⟨q, hq, hanc⟩
          have hqsome : (fsFind fs q).isSome := fsFind_isSome_of_mem hq
          have hql := hclosed p (List.mem_cons_self p rest) hfind q hqsome hanc
          have hqrest : q ∈ rest := by
            rcases List.mem_cons.mp hql with h | h
            · exact absurd h.symm hanc.2
            · exact h
          have hge : sepGe p q := List.rel_of_sorted_cons hsorted q hqrest
          have hlt : sepCount p < sepCount q :=
            hanc.sepCount_lt (hne p (List.mem_cons_self p rest))
          unfold sepGe at hge
          omega
        simp only [rmRun, hfind, hnodesc, Bool.false_eq_true, if_false]
        rw [hrec, hcombine]
      | file m c =>
        simp only [rmRun, hfind]
        rw [hrec, hcombine]
      | symlink t =>
        simp only [rmRun, hfind]
        rw [hrec, hcombine]

/-- C4: rm_files_in_set processes the replica-only set deep-first and
removes each path according to its kind at removal time (real directory
via rmdir, symlink via unlink, anything else via unlink) — that is the
definition above; and for every duplicate-free set of nonempty recorded
paths containing all recorded entries lying strictly below each of its
directories, the run completes (so no rmdir ever met a nonempty
directory and no unlink a missing entry), leaving exactly the tree with
those paths removed. -/
theorem rm_files_in_set_ok (fs : FS) (setPaths : List RelPath)
    (hnd : setPaths.Nodup)
    (hne : ∀ p ∈ setPaths, p ≠ [])
    (hmem : ∀ p ∈ setPaths, p ∈ fsPaths fs)
    (hclosed : ∀ p ∈ setPaths, fsFind fs p = some .dir →
      ∀ q ∈ fsPaths fs, strictAnc p q → q ∈ setPaths) :
    (rm_files_in_set fs setPaths).2 = some (fsRemoveAll fs setPaths) ∧
    ∀ q, fsFind (fsRemoveAll fs setPaths) q =
      if q ∈ setPaths then none else fsFind fs q := by
  have hperm : List.Perm (sort_paths_set_by_sep setPaths true) setPaths := by
    simpa [sort_paths_set_by_sep] using List.perm_insertionSort sepGe setPaths
  have hsorted : List.Sorted sepGe (sort_paths_set_by_sep setPaths true) := by
    simpa [sort_paths_set_by_sep] using List.sorted_insertionSort sepGe setPaths
  have hmem' : ∀ q, q ∈ sort_paths_set_by_sep setPaths true ↔ q ∈ setPaths :=
    fun q => hperm.mem_iff
  have hrun := rmRun_ok (sort_paths_set_by_sep setPaths true) fs
    (hperm.nodup_iff.mpr hnd)
    (fun p hp => hne p ((hmem' p).mp hp))
    (fun p hp => fsFind_isSome_of_mem (hmem p ((hmem' p).mp hp)))
    (fun p hp hdir q hq hanc => by
      have hqmem : q ∈ fsPaths fs := by
        cases hfq : fsFind fs q with
        | none => rw [hfq] at hq; simp at hq
        | some e => exact fsFind_eq_some_mem hfq
      exact (hmem' q).mpr
        (hclosed p ((hmem' p).mp hp) hdir q hqmem hanc))
    hsorted
  have hsame : fsRemoveAll fs (sort_paths_set_by_sep setPaths true) =
      fsRemoveAll fs setPaths := by
    unfold fsRemoveAll
    apply List.filter_congr
    intro e _
    by_cases h : e.1 ∈ setPaths <;> simp [h, hmem' e.1]
  constructor
  · rw [rm_files_in_set, hrun, hsame]
  · intro q
    exact fsFind_removeAll fs setPaths q


/-- filecmp.cmp(src_path, rep_path) with its default shallow mode
(main.py:239), on a source-side regular file.  os.stat yields the
signature (file type, size, mtime); equal signatures of two regular
files return True without reading any content; a non-regular replica
entry (a directory) returns False; differing sizes return False;
otherwise the bytes are compared.  os.stat follows symlinks, so a
replica-side symlink leads outside the modelled tree; that case, like a
missing replica entry, is modelled as a cycle-aborting error. -/
def filecmpCmp (m : Nat) (c : String) (repE : Option Entry) : Option Bool :=
  match repE with
  | some (Entry.file m2 c2) =>
    if c.length = c2.length ∧ m = m2 then some true
    else if c.length = c2.length then some (c = c2)
    else some false
  | some Entry.dir => some false
  | _ => none

/-- Parent directory of a relative path: all but the last component. -/
def parentOf (p : RelPath) : RelPath := p.dropLast

/-- One iteration of the common-entry loop (main.py:218-247) at path
`p`: a real source directory is skipped; a source symlink is compared by
target with readlink on both sides (readlink on a non-symlink replica
entry raises, aborting), and on mismatch is unlinked and recreated with
the source target via copy2(follow_symlinks=False); otherwise
filecmp.cmp decides, and on inequality copy2 overwrites the replica
file preserving content and mtime.  When the replica side is a
directory, copy2 copies the source file into it, at the path extended
by its own basename (a write onto a directory or through a symlink at
that inner path leaves the model and aborts).  Returns the new replica
tree, the info log lines, and whether a mutation occurred; `none` is a
raised error aborting the cycle. -/
def updateEntry (src rep : FS) (p : RelPath) : Option (FS × List Event × Bool) :=
  match fsFind src p with
  | some Entry.dir => some (rep, [], false)
  | some (Entry.symlink t) =>
    match fsFind rep p with
    | some (Entry.symlink t2) =>
      if t2 = t then some (rep, [], false)
      else some (fsInsert (fsErase rep p) p (Entry.symlink t),
                 [Event.updatingSymlink p t], true)
    | _ => none
  | some (Entry.file m c) =>
    match filecmpCmp m c (fsFind rep p) with
    | none => none
    | some true => some (rep, [], false)
    | some false =>
      match fsFind rep p with
      | some Entry.dir =>
        match p.getLast? with
        | none => none
        | some b =>
          match fsFind rep (p ++ [b]) with
          | none => some (fsInsert rep (p ++ [b]) (Entry.file m c),
                          [Event.updatingFile p], true)
          | some (Entry.file _ _) =>
            some (fsInsert rep (p ++ [b]) (Entry.file m c),
                  [Event.updatingFile p], true)
          | some _ => none
      | _ => some (fsInsert rep p (Entry.file m c),
                   [Event.updatingFile p], true)
  | none => none

/-- The common-entry loop (main.py:217-247) over an enumeration of the
common set, threading the replica tree, concatenating log lines, and
or-ing the updated flag. -/
def updateCommonRun (src : FS) : FS → List RelPath → Option (FS × List Event × Bool)
  | rep, [] => some (rep, [], false)
  | rep, p :: rest => do
    let s1 ← updateEntry src rep p
    let s2 ← updateCommonRun src s1.1 rest
    return (s2.1, s1.2.1 ++ s2.2.1, s1.2.2 || s2.2.2)

/-- One iteration of the source-only creation loop (main.py:257-278) at
path `p`: a real source directory is created with mkdir (raises when
the path already exists or when the replica parent is missing or not a
directory); any other source entry is copied with
copy2(follow_symlinks=False), which recreates a symlink with the
identical target (raising if the path exists) and copies a regular
file preserving content and mtime (a copy onto an existing directory
or symlink leaves the model and aborts). -/
def createEntry (src rep : FS) (p : RelPath) : Option (FS × Event) :=
  let parentOk : Prop := parentOf p = [] ∨ fsFind rep (parentOf p) = some Entry.dir
  match fsFind src p with
  | some Entry.dir =>
    if parentOk ∧ fsFind rep p = none then
      some (fsInsert rep p Entry.dir, Event.creatingDir p)
    else none
  | some (Entry.symlink t) =>
    if parentOk ∧ fsFind rep p = none then
      some (fsInsert rep p (Entry.symlink t), Event.creatingSymlink p t)
    else none
  | some (Entry.file m c) =>
    match fsFind rep p with
    | none =>
      if parentOk then
        some (fsInsert rep p (Entry.file m c), Event.creatingFile p)
      else none
    | some (Entry.file _ _) =>
      if parentOk then
        some (fsInsert rep p (Entry.file m c), Event.creatingFile p)
      else none
    | some _ => none
  | none => none

/-- The source-only creation loop (main.py:250-278) over the
shallow-first sorted sequence. -/
def createRun (src : FS) : FS → List RelPath → Option (FS × List Event)
  | rep, [] => some (rep, [])
  | rep, p :: rest => do
    let s1 ← createEntry src rep p
    let s2 ← createRun src s1.1 rest
    return (s2.1, s1.2 :: s2.2)

/-- One steady-state synchronization cycle (main.py:202-282), entered
when the replica root exists: snapshot both trees, compute the three
diff sets, remove replica-only entries deep-first, reconcile common
entries, create source-only entries shallow-first.  Returns the new
replica tree, the emitted log lines, and the updated flag — false
means the cycle ends with the "already synchronized" debug status
(main.py:279-281).  `none` is an uncaught error aborting the cycle. -/
def cycleSteady (src rep : FS) : Option (FS × List Event × Bool) :=
  let srcSet := fsPaths src
  let repSet := fsPaths rep
  let onlyRep := only_in_rep srcSet repSet
  let onlySrc := only_in_src srcSet repSet
  let rmres := rm_files_in_set rep onlyRep
  match rmres.2 with
  | none => none
  | some rep1 =>
    match updateCommonRun src rep1 (common_rel_paths srcSet repSet) with
    | none => none
    | some (rep2, ev2, u2) =>
      match createRun src rep2 (sort_paths_set_by_sep onlySrc false) with
      | none => none
      | some (rep3, ev3) =>
        some (rep3, rmres.1 ++ ev2 ++ ev3,
              (!onlyRep.isEmpty) || u2 || (!onlySrc.isEmpty))

/-- Log lines of the bootstrap branch (main.py:178-200): one "Creating
directory" line for the replica root itself (logged at main.py:181,
before copytree), then one creation line per source entry
shallow-first, the kind read from the source side.  The root is the
empty relative path. -/
def bootstrapEvents (src : FS) : List Event :=
  Event.creatingDir [] ::
    (sort_paths_set_by_sep (fsPaths src) false).map (fun p =>
      match fsFind src p with
      | some Entry.dir => Event.creatingDir p
      | some (Entry.symlink t) => Event.creatingSymlink p t
      | _ => Event.creatingFile p)

/-- One full synchronization cycle (main.py:169-282).  When the replica
root does not exist, shutil.copytree(..., symlinks=True) copies the
source tree wholesale — entry for entry, preserving symbolic links as
links and file metadata — and the cycle continues directly to the next
sleep, skipping steps 2-4; otherwise the steady-state reconciliation
runs. -/
def syncCycle (src : FS) (replica : Option FS) : Option (FS × List Event × Bool) :=
  match replica with
  | none => some (src, bootstrapEvents src, true)
  | some rep => cycleSteady src rep

theorem fsFind_mem : ∀ {fs : FS} {p : RelPath} {e : Entry},
    fsFind fs p = some e → (p, e) ∈ fs := by
  intro fs
  induction fs with
  | nil => intro p e h; simp [fsFind] at h
  | cons hd tl ih =>
    intro p e h
    rcases hd with ⟨a, b⟩
    rw [fsFind] at h
    by_cases hh : a = p
    · simp [hh] at h
      subst hh
      rw [h]
      exact List.mem_cons_self _ _
    · simp [hh] at h
      exact List.mem_cons_of_mem (a, b) (ih h)

/-- Well-formed tree snapshot, as produced by scanning an on-disk tree:
recorded paths are duplicate-free and nonempty, and every proper
nonempty front of a recorded path is itself recorded as a real
directory. -/
def WFFS (fs : FS) : Prop :=
  (fsPaths fs).Nodup ∧
  ∀ e ∈ fs, e.1 ≠ [] ∧
    ∀ n ∈ List.range e.1.length, n ≠ 0 → fsFind fs (e.1.take n) = some Entry.dir

instance (fs : FS) : Decidable (WFFS fs) := by
  unfold WFFS; infer_instance

theorem WFFS.find_ne_nil {fs : FS} (h : WFFS fs) {p : RelPath} {e : Entry}
    (hf : fsFind fs p = some e) : p ≠ [] :=
  (h.2 (p, e) (fsFind_mem hf)).1

theorem WFFS.mem_ne_nil {fs : FS} (h : WFFS fs) {p : RelPath}
    (hp : p ∈ fsPaths fs) : p ≠ [] := by
  have hs := fsFind_isSome_of_mem hp
  cases hf : fsFind fs p with
  | none => rw [hf] at hs; simp at hs
  | some e => exact h.find_ne_nil hf

theorem WFFS.front_dir {fs : FS} (h : WFFS fs) {p q : RelPath} {e : Entry}
    (hf : fsFind fs p = some e) (hanc : strictAnc q p) (hq : q ≠ []) :
    fsFind fs q = some Entry.dir := by
  have hmem := fsFind_mem hf
  have hlen := hanc.length_lt
  have hn0 : q.length ≠ 0 := by
    cases q with
    | nil => exact absurd rfl hq
    | cons x xs => simp
  have := (h.2 (p, e) hmem).2 q.length (List.mem_range.mpr hlen) hn0
  rw [hanc.1] at this
  exact this

theorem WFFS.parent_dir {fs : FS} (h : WFFS fs) {p : RelPath} {e : Entry}
    (hf : fsFind fs p = some e) (hpar : parentOf p ≠ []) :
    fsFind fs (parentOf p) = some Entry.dir := by
  have hne : p ≠ [] := h.find_ne_nil hf
  have h1 : 1 ≤ p.length := by
    cases p with
    | nil => exact absurd rfl hne
    | cons x xs => simp
  apply h.front_dir hf ?_ hpar
  constructor
  · rw [parentOf, List.dropLast_eq_take]
    congr 1
    simp [List.length_take]
  · intro hcon
    have := congrArg List.length hcon
    rw [parentOf, List.length_dropLast] at this
    omega

/-- Whether two entries have the same kind class
(directory / regular file / symlink). -/
def sameKind (a b : Entry) : Bool :=
  match a, b with
  | Entry.dir, Entry.dir => true
  | Entry.file _ _, Entry.file _ _ => true
  | Entry.symlink _, Entry.symlink _ => true
  | _, _ => false

/-- Every common path carries the same kind of entry on both sides. -/
def KindMatch (src rep : FS) : Prop :=
  ∀ e ∈ src, ∀ e2 : Entry, fsFind rep e.1 = some e2 → sameKind e.2 e2 = true

instance (src rep : FS) : Decidable (KindMatch src rep) := by
  unfold KindMatch; infer_instance

theorem KindMatch.kind_at {src rep : FS} (h : KindMatch src rep) {p : RelPath}
    {eS eR : Entry} (hS : fsFind src p = some eS) (hR : fsFind rep p = some eR) :
    sameKind eS eR = true :=
  h (p, eS) (fsFind_mem hS) eR hR

/-- A source file and a replica file with equal stat signature (size
and mtime) have equal bytes — the condition under which the shallow
comparison shortcut is lossless. -/
def sigOk (a : Entry) (b : Option Entry) : Bool :=
  match a, b with
  | Entry.file m c, some (Entry.file m2 c2) =>
    !((c.length == c2.length) && (m == m2)) || (c == c2)
  | _, _ => true

/-- No clock-skew collision between common regular files. -/
def SigHonest (src rep : FS) : Prop :=
  ∀ e ∈ src, sigOk e.2 (fsFind rep e.1) = true

instance (src rep : FS) : Decidable (SigHonest src rep) := by
  unfold SigHonest; infer_instance

theorem SigHonest.content_eq {src rep : FS} (h : SigHonest src rep) {p : RelPath}
    {m m2 : Nat} {c c2 : String}
    (hS : fsFind src p = some (Entry.file m c))
    (hR : fsFind rep p = some (Entry.file m2 c2))
    (hlen : c.length = c2.length) (hm : m = m2) : c = c2 := by
  have := h (p, Entry.file m c) (fsFind_mem hS)
  rw [hR] at this
  unfold sigOk at this
  simp [hlen, hm] at this
  exact this

/-- The relation between the source entry and the replica entry at one
path that a successful cycle establishes: same presence, same kind,
equal file content, equal symlink target (file mtimes may differ when
the bytes already agreed). -/
def entryConv : Option Entry → Option Entry → Bool
  | none, none => true
  | some Entry.dir, some Entry.dir => true
  | some (Entry.file _ c), some (Entry.file _ c2) => c2 == c
  | some (Entry.symlink t), some (Entry.symlink t2) => t2 == t
  | _, _ => false

/-- The per-path convergence relation of a successful cycle. -/
def convergedAt (src rep : FS) (p : RelPath) : Prop :=
  entryConv (fsFind src p) (fsFind rep p) = true

theorem convergedAt_congr {src rep1 rep2 : FS} {p : RelPath}
    (hfind : fsFind rep2 p = fsFind rep1 p)
    (h : convergedAt src rep1 p) : convergedAt src rep2 p := by
  unfold convergedAt at h ⊢
  rw [hfind]
  exact h

theorem convergedAt_of_find_eq {src rep : FS} {p : RelPath}
    (hfind : fsFind rep p = fsFind src p) : convergedAt src rep p := by
  unfold convergedAt
  rw [hfind]
  cases fsFind src p with
  | none => rfl
  | some e => cases e <;> simp [entryConv]

theorem updateEntry_ok {src rep : FS} {p : RelPath} {eS eR : Entry}
    (hS : fsFind src p = some eS) (hR : fsFind rep p = some eR)
    (hk : sameKind eS eR = true) (hsig : sigOk eS (some eR) = true) :
    ∃ st : FS × List Event × Bool, updateEntry src rep p = some st ∧
      convergedAt src st.1 p ∧
      ∀ q, q ≠ p → fsFind st.1 q = fsFind rep q := by
  cases eS with
  | dir =>
    cases eR with
    | dir =>
      refine ⟨(rep, [], false), ?_, ?_, fun q _ => rfl⟩
      · simp only [updateEntry, hS]
      · unfold convergedAt; rw [hS, hR]; rfl
    | file m2 c2 => simp [sameKind] at hk
    | symlink t2 => simp [sameKind] at hk
  | symlink t =>
    cases eR with
    | dir => simp [sameKind] at hk
    | file m2 c2 => simp [sameKind] at hk
    | symlink t2 =>
      by_cases ht : t2 = t
      · refine ⟨(rep, [], false), ?_, ?_, fun q _ => rfl⟩
        · simp only [updateEntry, hS, hR]; simp [ht]
        · unfold convergedAt; rw [hS, hR]; simp [entryConv, ht]
      · refine ⟨(fsInsert (fsErase rep p) p (Entry.symlink t),
                 [Event.updatingSymlink p t], true), ?_, ?_, ?_⟩
        · simp only [updateEntry, hS, hR]; simp [ht]
        · unfold convergedAt
          rw [hS, fsFind_insert_self]
          simp [entryConv]
        · intro q hq
          rw [fsFind_insert_ne _ _ hq, fsFind_erase_ne _ hq]
  | file m c =>
    cases eR with
    | dir => simp [sameKind] at hk
    | symlink t2 => simp [sameKind] at hk
    | file m2 c2 =>
      by_cases hfast : c.length = c2.length ∧ m = m2
      · have hc : c = c2 := by
          unfold sigOk at hsig
          simp [hfast.1, hfast.2] at hsig
          exact hsig
        refine ⟨(rep, [], false), ?_, ?_, fun q _ => rfl⟩
        · simp only [updateEntry, hS, hR, filecmpCmp]
          simp [hfast]
        · unfold convergedAt; rw [hS, hR]; simp [entryConv, hc]
      · by_cases hlen : c.length = c2.length
        · have hm : m ≠ m2 := fun h => hfast ⟨hlen, h⟩
          by_cases hcc : c = c2
          · refine ⟨(rep, [], false), ?_, ?_, fun q _ => rfl⟩
            · simp only [updateEntry, hS, hR, filecmpCmp]
              simp [hlen, hm, hcc]
            · unfold convergedAt; rw [hS, hR]; simp [entryConv, hcc]
          · refine ⟨(fsInsert rep p (Entry.file m c),
                     [Event.updatingFile p], true), ?_, ?_, ?_⟩
            · simp only [updateEntry, hS, hR, filecmpCmp]
              simp [hlen, hm, hcc]
            · unfold convergedAt
              rw [hS, fsFind_insert_self]
              simp [entryConv]
            · intro q hq
              rw [fsFind_insert_ne _ _ hq]
        · refine ⟨(fsInsert rep p (Entry.file m c),
                   [Event.updatingFile p], true), ?_, ?_, ?_⟩
          · simp only [updateEntry, hS, hR, filecmpCmp]
            simp [hfast, hlen]
          · unfold convergedAt
            rw [hS, fsFind_insert_self]
            simp [entryConv]
          · intro q hq
            rw [fsFind_insert_ne _ _ hq]

theorem updateCommonRun_ok {src : FS} : ∀ (l : List RelPath) (rep : FS),
    l.Nodup →
    (∀ p ∈ l, ∃ eS eR : Entry, fsFind src p = some eS ∧
      fsFind rep p = some eR ∧ sameKind eS eR = true ∧
      sigOk eS (some eR) = true) →
    ∃ st : FS × List Event × Bool,
      updateCommonRun src rep l = some st ∧
      (∀ p ∈ l, convergedAt src st.1 p) ∧
      (∀ q, q ∉ l → fsFind st.1 q = fsFind rep q)
  | [], rep => by
    intro _ _
    exact ⟨(rep, [], false), rfl, by simp, fun q _ => rfl⟩
  | p :: rest, rep => by
    intro hnd hyp
    obtain ⟨eS, eR, hS, hR, hk, hsig⟩ := hyp p (List.mem_cons_self p rest)
    obtain ⟨st1, hst1, hconv1, hpres1⟩ := updateEntry_ok hS hR hk hsig
    have hrest : ∀ r ∈ rest, ∃ eS2 eR2 : Entry, fsFind src r = some eS2 ∧
        fsFind st1.1 r = some eR2 ∧ sameKind eS2 eR2 = true ∧
        sigOk eS2 (some eR2) = true := by
      intro r hr
      obtain ⟨eS2, eR2, h1, h2, h3, h4⟩ := hyp r (List.mem_cons_of_mem p hr)
      have hrp : r ≠ p := by
        intro hrp
        exact (List.nodup_cons.mp hnd).1 (hrp ▸ hr)
      exact ⟨eS2, eR2, h1, by rw [hpres1 r hrp]; exact h2, h3, h4⟩
    obtain ⟨st2, hst2, hconv2, hpres2⟩ :=
      updateCommonRun_ok rest st1.1 (List.nodup_cons.mp hnd).2 hrest
    refine ⟨(st2.1, st1.2.1 ++ st2.2.1, st1.2.2 || st2.2.2), ?_, ?_, ?_⟩
    · rw [updateCommonRun, hst1]
      simp [Option.bind, hst2]
    · intro r hr
      rcases List.mem_cons.mp hr with rfl | hr2
      · have hnp : r ∉ rest := (List.nodup_cons.mp hnd).1
        exact convergedAt_congr (hpres2 r hnp) hconv1
      · exact hconv2 r hr2
    · intro q hq
      have hq1 : q ≠ p := fun h => hq (h ▸ List.mem_cons_self p rest)
      have hq2 : q ∉ rest := fun h => hq (List.mem_cons_of_mem p h)
      rw [hpres2 q hq2, hpres1 q hq1]

theorem parentOf_length {p : RelPath} : (parentOf p).length = p.length - 1 := by
  rw [parentOf]
  exact List.length_dropLast p

theorem parentOf_ne_self {p : RelPath} (h : p ≠ []) : parentOf p ≠ p := by
  intro hcon
  have := congrArg List.length hcon
  rw [parentOf_length] at this
  have h1 : 1 ≤ p.length := by
    cases p with
    | nil => exact absurd rfl h
    | cons x xs => simp
  omega

theorem createEntry_ok {src rep : FS} {p : RelPath} {eS : Entry}
    (hS : fsFind src p = some eS) (hnone : fsFind rep p = none)
    (hpar : parentOf p = [] ∨ fsFind rep (parentOf p) = some Entry.dir) :
    ∃ st : FS × Event, createEntry src rep p = some st ∧
      st.1 = fsInsert rep p eS := by
  cases eS with
  | dir =>
    refine ⟨(fsInsert rep p Entry.dir, Event.creatingDir p), ?_, rfl⟩
    simp only [createEntry, hS]
    rw [if_pos ⟨hpar, hnone⟩]
  | symlink t =>
    refine ⟨(fsInsert rep p (Entry.symlink t), Event.creatingSymlink p t), ?_, rfl⟩
    simp only [createEntry, hS]
    rw [if_pos ⟨hpar, hnone⟩]
  | file m c =>
    refine ⟨(fsInsert rep p (Entry.file m c), Event.creatingFile p), ?_, rfl⟩
    simp only [createEntry, hS, hnone]
    rw [if_pos hpar]

theorem createRun_ok {src : FS} : ∀ (l : List RelPath) (rep : FS),
    l.Nodup → List.Sorted sepLe l →
    (∀ p ∈ l, p ≠ [] ∧ (fsFind src p).isSome ∧ fsFind rep p = none ∧
      (parentOf p = [] ∨ fsFind rep (parentOf p) = some Entry.dir ∨
        (parentOf p ∈ l ∧ fsFind src (parentOf p) = some Entry.dir))) →
    ∃ st : FS × List Event,
      createRun src rep l = some st ∧
      (∀ p ∈ l, fsFind st.1 p = fsFind src p) ∧
      (∀ q, q ∉ l → fsFind st.1 q = fsFind rep q)
  | [], rep => by
    intro _ _ _
    exact ⟨(rep, []), rfl, by simp, fun q _ => rfl⟩
  | p :: rest, rep => by
    intro hnd hsorted hyp
    obtain ⟨hne, hsome, hnone, hpar⟩ := hyp p (List.mem_cons_self p rest)
    cases hfS : fsFind src p with
    | none => rw [hfS] at hsome; simp at hsome
    | some eS =>
    have hparok : parentOf p = [] ∨ fsFind rep (parentOf p) = some Entry.dir := by
      by_cases hpnil : parentOf p = []
      · exact Or.inl hpnil
      · rcases hpar with h | h | ⟨hm, _⟩
        · exact Or.inl h
        · exact Or.inr h
        · exfalso
          have hmp : parentOf p ∈ rest := by
            rcases List.mem_cons.mp hm with h' | h'
            · exact absurd h' (parentOf_ne_self hne)
            · exact h'
          have hle : sepLe p (parentOf p) := List.rel_of_sorted_cons hsorted _ hmp
          have h1 : 1 ≤ p.length := by
            cases p with
            | nil => exact absurd rfl hne
            | cons x xs => simp
          have h2 : 1 ≤ (parentOf p).length := by
            cases hpp : parentOf p with
            | nil => exact absurd hpp hpnil
            | cons x xs => simp
          unfold sepLe sepCount at hle
          rw [parentOf_length] at hle h2
          omega
    obtain ⟨st1, hst1, hins⟩ := createEntry_ok hfS hnone hparok
    have hrest : ∀ r ∈ rest, r ≠ [] ∧ (fsFind src r).isSome ∧
        fsFind st1.1 r = none ∧
        (parentOf r = [] ∨ fsFind st1.1 (parentOf r) = some Entry.dir ∨
          (parentOf r ∈ rest ∧ fsFind src (parentOf r) = some Entry.dir)) := by
      intro r hr
      obtain ⟨hne2, hsome2, hnone2, hpar2⟩ := hyp r (List.mem_cons_of_mem p hr)
      have hrp : r ≠ p := by
        intro hrp
        exact (List.nodup_cons.mp hnd).1 (hrp ▸ hr)
      refine ⟨hne2, hsome2, ?_, ?_⟩
      · rw [hins, fsFind_insert_ne _ _ hrp, hnone2]
      · rcases hpar2 with h | h | ⟨hm, hd⟩
        · exact Or.inl h
        · have hrpp : parentOf r ≠ p := by
            intro hcon
            rw [hcon, hnone] at h
            exact Option.noConfusion h
          rw [hins]
          exact Or.inr (Or.inl (by rw [fsFind_insert_ne _ _ hrpp]; exact h))
        · by_cases hpp : parentOf r = p
          · rw [hins]
            refine Or.inr (Or.inl ?_)
            rw [hpp, fsFind_insert_self]
            rw [hpp, hfS] at hd
            exact congrArg some (Option.some.inj hd) ▸ rfl
          · refine Or.inr (Or.inr ⟨?_, hd⟩)
            rcases List.mem_cons.mp hm with h' | h'
            · exact absurd h' hpp
            · exact h'
    obtain ⟨st2, hst2, hgood2, hpres2⟩ :=
      createRun_ok rest st1.1 (List.nodup_cons.mp hnd).2 hsorted.of_cons hrest
    refine ⟨(st2.1, st1.2 :: st2.2), ?_, ?_, ?_⟩
    · rw [createRun, hst1]
      simp [Option.bind, hst2]
    · intro r hr
      rcases List.mem_cons.mp hr with rfl | hr2
      · have hnp : r ∉ rest := (List.nodup_cons.mp hnd).1
        rw [hpres2 r hnp, hins, fsFind_insert_self, hfS]
      · exact hgood2 r hr2
    · intro q hq
      have hq1 : q ≠ p := fun h => hq (h ▸ List.mem_cons_self p rest)
      have hq2 : q ∉ rest := fun h => hq (List.mem_cons_of_mem p h)
      rw [hpres2 q hq2, hins, fsFind_insert_ne _ _ hq1]

theorem mem_fsPaths_iff {fs : FS} {p : RelPath} :
    p ∈ fsPaths fs ↔ (fsFind fs p).isSome := by
  constructor
  · exact fsFind_isSome_of_mem
  · intro h
    cases hf : fsFind fs p with
    | none => rw [hf] at h; simp at h
    | some e => exact fsFind_eq_some_mem hf

theorem mem_only_in_rep {s r : List RelPath} {p : RelPath} :
    p ∈ only_in_rep s r ↔ p ∈ r ∧ p ∉ s := by
  simp [only_in_rep, List.mem_filter]

theorem mem_only_in_src {s r : List RelPath} {p : RelPath} :
    p ∈ only_in_src s r ↔ p ∈ s ∧ p ∉ r := by
  simp [only_in_src, List.mem_filter]

theorem mem_common_rel_paths {s r : List RelPath} {p : RelPath} :
    p ∈ common_rel_paths s r ↔ p ∈ s ∧ p ∈ r := by
  simp [common_rel_paths, List.mem_filter]

theorem convergedAt_src_none {src rep : FS} {p : RelPath}
    (h : convergedAt src rep p) (hS : fsFind src p = none) :
    fsFind rep p = none := by
  unfold convergedAt at h
  rw [hS] at h
  cases hfr : fsFind rep p with
  | none => rfl
  | some e => rw [hfr] at h; cases e <;> simp [entryConv] at h

theorem convergedAt_rep_some {src rep : FS} {p : RelPath}
    (h : convergedAt src rep p) {e : Entry} (hR : fsFind rep p = some e) :
    (fsFind src p).isSome := by
  cases hfs : fsFind src p with
  | some e2 => rfl
  | none =>
    rw [convergedAt_src_none h hfs] at hR
    exact Option.noConfusion hR

theorem convergedAt_src_dir {src rep : FS} {p : RelPath}
    (h : convergedAt src rep p) (hS : fsFind src p = some Entry.dir) :
    fsFind rep p = some Entry.dir := by
  unfold convergedAt at h
  rw [hS] at h
  cases hfr : fsFind rep p with
  | none => rw [hfr] at h; simp [entryConv] at h
  | some e =>
    cases e with
    | dir => rfl
    | file m2 c2 => rw [hfr] at h; simp [entryConv] at h
    | symlink t2 => rw [hfr] at h; simp [entryConv] at h

theorem convergedAt_src_file {src rep : FS} {p : RelPath} {m : Nat} {c : String}
    (h : convergedAt src rep p) (hS : fsFind src p = some (Entry.file m c)) :
    ∃ m2 : Nat, fsFind rep p = some (Entry.file m2 c) := by
  unfold convergedAt at h
  rw [hS] at h
  cases hfr : fsFind rep p with
  | none => rw [hfr] at h; simp [entryConv] at h
  | some e =>
    cases e with
    | dir => rw [hfr] at h; simp [entryConv] at h
    | file m2 c2 =>
      rw [hfr] at h
      simp [entryConv] at h
      exact ⟨m2, by rw [h]⟩
    | symlink t2 => rw [hfr] at h; simp [entryConv] at h

theorem convergedAt_src_symlink {src rep : FS} {p : RelPath} {t : String}
    (h : convergedAt src rep p) (hS : fsFind src p = some (Entry.symlink t)) :
    fsFind rep p = some (Entry.symlink t) := by
  unfold convergedAt at h
  rw [hS] at h
  cases hfr : fsFind rep p with
  | none => rw [hfr] at h; simp [entryConv] at h
  | some e =>
    cases e with
    | dir => rw [hfr] at h; simp [entryConv] at h
    | file m2 c2 => rw [hfr] at h; simp [entryConv] at h
    | symlink t2 =>
      rw [hfr] at h
      simp [entryConv] at h
      rw [h]

theorem cycleSteady_ok {src rep : FS} (hwfS : WFFS src) (hwfR : WFFS rep)
    (hk : KindMatch src rep) (hsig : SigHonest src rep) :
    ∃ st : FS × List Event × Bool, cycleSteady src rep = some st ∧
      ∀ p, convergedAt src st.1 p := by
  obtain ⟨hrm2, hrep1find⟩ :=
    rm_files_in_set_ok rep (only_in_rep (fsPaths src) (fsPaths rep))
      (hwfR.1.filter _)
      (fun p hp => hwfR.mem_ne_nil (mem_only_in_rep.mp hp).1)
      (fun p hp => (mem_only_in_rep.mp hp).1)
      (fun p hp hdir q hq hanc => by
        refine mem_only_in_rep.mpr ⟨hq, ?_⟩
        intro hqs
        cases hqfind : fsFind src q with
        | none => exact not_mem_of_fsFind_eq_none hqfind hqs
        | some e =>
          have hpdir := hwfS.front_dir hqfind hanc
            (hwfR.mem_ne_nil (mem_only_in_rep.mp hp).1)
          exact (mem_only_in_rep.mp hp).2 (fsFind_eq_some_mem hpdir))
  have hcommonHyp : ∀ p ∈ common_rel_paths (fsPaths src) (fsPaths rep),
      ∃ eS eR : Entry, fsFind src p = some eS ∧
        fsFind (fsRemoveAll rep (only_in_rep (fsPaths src) (fsPaths rep))) p
          = some eR ∧
        sameKind eS eR = true ∧ sigOk eS (some eR) = true := by
    intro p hp
    obtain ⟨hps, hpr⟩ := mem_common_rel_paths.mp hp
    have hs := fsFind_isSome_of_mem hps
    cases hSf : fsFind src p with
    | none => rw [hSf] at hs; simp at hs
    | some eS =>
      have hnotOR : p ∉ only_in_rep (fsPaths src) (fsPaths rep) := by
        intro hcon
        exact (mem_only_in_rep.mp hcon).2 hps
      have hrsome := fsFind_isSome_of_mem hpr
      cases hRf : fsFind rep p with
      | none => rw [hRf] at hrsome; simp at hrsome
      | some eR =>
        refine ⟨eS, eR, rfl, ?_, hk.kind_at hSf hRf, ?_⟩
        · rw [hrep1find p, if_neg hnotOR]
          exact hRf
        · have := hsig (p, eS) (fsFind_mem hSf)
          rw [hRf] at this
          exact this
  obtain ⟨⟨rep2, ev2, u2⟩, hst2, hconv2, hpres2⟩ := updateCommonRun_ok
    (common_rel_paths (fsPaths src) (fsPaths rep))
    (fsRemoveAll rep (only_in_rep (fsPaths src) (fsPaths rep)))
    (hwfS.1.filter _) hcommonHyp
  have hsorteq : sort_paths_set_by_sep
      (only_in_src (fsPaths src) (fsPaths rep)) false =
      List.insertionSort sepLe (only_in_src (fsPaths src) (fsPaths rep)) := by
    simp [sort_paths_set_by_sep]
  have hsortmem : ∀ q, q ∈ sort_paths_set_by_sep
      (only_in_src (fsPaths src) (fsPaths rep)) false ↔
      q ∈ only_in_src (fsPaths src) (fsPaths rep) := by
    intro q
    rw [hsorteq]
    exact (List.perm_insertionSort sepLe _).mem_iff
  have hcreateHyp : ∀ p ∈ sort_paths_set_by_sep
      (only_in_src (fsPaths src) (fsPaths rep)) false,
      p ≠ [] ∧ (fsFind src p).isSome ∧ fsFind rep2 p = none ∧
      (parentOf p = [] ∨ fsFind rep2 (parentOf p) = some Entry.dir ∨
        (parentOf p ∈ sort_paths_set_by_sep
          (only_in_src (fsPaths src) (fsPaths rep)) false ∧
         fsFind src (parentOf p) = some Entry.dir)) := by
    intro p hp
    obtain ⟨hps, hnpr⟩ := mem_only_in_src.mp ((hsortmem p).mp hp)
    have hnotcommon : p ∉ common_rel_paths (fsPaths src) (fsPaths rep) :=
      fun hc => hnpr (mem_common_rel_paths.mp hc).2
    have hnotOR : p ∉ only_in_rep (fsPaths src) (fsPaths rep) :=
      fun hc => hnpr (mem_only_in_rep.mp hc).1
    have hst2p : fsFind rep2 p = none := by
      rw [hpres2 p hnotcommon, hrep1find p, if_neg hnotOR]
      exact fsFind_eq_none_of_not_mem hnpr
    refine ⟨hwfS.mem_ne_nil hps, fsFind_isSome_of_mem hps, hst2p, ?_⟩
    by_cases hpar : parentOf p = []
    · exact Or.inl hpar
    · have hs := fsFind_isSome_of_mem hps
      cases hSf : fsFind src p with
      | none => rw [hSf] at hs; simp at hs
      | some eS =>
        have hpdir := hwfS.parent_dir hSf hpar
        have hparmem : parentOf p ∈ fsPaths src := fsFind_eq_some_mem hpdir
        by_cases hparrep : parentOf p ∈ fsPaths rep
        · have hpc : parentOf p ∈ common_rel_paths (fsPaths src) (fsPaths rep) :=
            mem_common_rel_paths.mpr ⟨hparmem, hparrep⟩
          exact Or.inr (Or.inl (convergedAt_src_dir (hconv2 _ hpc) hpdir))
        · exact Or.inr (Or.inr ⟨(hsortmem _).mpr
            (mem_only_in_src.mpr ⟨hparmem, hparrep⟩), hpdir⟩)
  obtain ⟨⟨rep3, ev3⟩, hst3, hgood3, hpres3⟩ := createRun_ok
    (sort_paths_set_by_sep (only_in_src (fsPaths src) (fsPaths rep)) false)
    rep2
    (by rw [hsorteq]
        exact (List.perm_insertionSort sepLe _).nodup_iff.mpr (hwfS.1.filter _))
    (by rw [hsorteq]; exact List.sorted_insertionSort sepLe _)
    hcreateHyp
  refine ⟨(rep3,
    (rm_files_in_set rep (only_in_rep (fsPaths src) (fsPaths rep))).1 ++
      ev2 ++ ev3,
    (!(only_in_rep (fsPaths src) (fsPaths rep)).isEmpty) || u2 ||
      (!(only_in_src (fsPaths src) (fsPaths rep)).isEmpty)), ?_, ?_⟩
  · simp only [cycleSteady, hrm2, hst2, hst3]
  · intro p
    by_cases hps : p ∈ fsPaths src
    · by_cases hpr : p ∈ fsPaths rep
      · have hpc : p ∈ common_rel_paths (fsPaths src) (fsPaths rep) :=
          mem_common_rel_paths.mpr ⟨hps, hpr⟩
        have hnotos : p ∉ sort_paths_set_by_sep
            (only_in_src (fsPaths src) (fsPaths rep)) false :=
          fun hc => (mem_only_in_src.mp ((hsortmem p).mp hc)).2 hpr
        exact convergedAt_congr (hpres3 p hnotos) (hconv2 p hpc)
      · have hos : p ∈ sort_paths_set_by_sep
            (only_in_src (fsPaths src) (fsPaths rep)) false :=
          (hsortmem p).mpr (mem_only_in_src.mpr ⟨hps, hpr⟩)
        exact convergedAt_of_find_eq (hgood3 p hos)
    · have hSnone : fsFind src p = none := fsFind_eq_none_of_not_mem hps
      have hnotc : p ∉ common_rel_paths (fsPaths src) (fsPaths rep) :=
        fun hc => hps (mem_common_rel_paths.mp hc).1
      have hnotos : p ∉ sort_paths_set_by_sep
          (only_in_src (fsPaths src) (fsPaths rep)) false :=
        fun hc => hps (mem_only_in_src.mp ((hsortmem p).mp hc)).1
      have hrepn : fsFind rep3 p = none := by
        rw [hpres3 p hnotos, hpres2 p hnotc, hrep1find p]
        by_cases hpr : p ∈ fsPaths rep
        · rw [if_pos (mem_only_in_rep.mpr ⟨hpr, hps⟩)]
        · rw [if_neg (fun hc => hpr (mem_only_in_rep.mp hc).1)]
          exact fsFind_eq_none_of_not_mem hpr
      unfold convergedAt
      rw [hSnone, hrepn]
      rfl

theorem syncCycle_ok {src : FS} (rep : Option FS) (hwfS : WFFS src)
    (hcompat : ∀ r, rep = some r → WFFS r ∧ KindMatch src r ∧ SigHonest src r) :
    ∃ st : FS × List Event × Bool, syncCycle src rep = some st ∧
      ∀ p, convergedAt src st.1 p := by
  cases rep with
  | none =>
    exact ⟨(src, bootstrapEvents src, true), rfl,
      fun p => convergedAt_of_find_eq rfl⟩
  | some r =>
    obtain ⟨hwfR, hk, hsig⟩ := hcompat r rfl
    exact cycleSteady_ok hwfS hwfR hk hsig

theorem updateEntry_noop {src rep : FS} {p : RelPath}
    (hconv : convergedAt src rep p) {eS : Entry}
    (hS : fsFind src p = some eS) :
    updateEntry src rep p = some (rep, [], false) := by
  cases eS with
  | dir => simp only [updateEntry, hS]
  | symlink t =>
    have hR := convergedAt_src_symlink hconv hS
    simp only [updateEntry, hS, hR]
    simp
  | file m c =>
    obtain ⟨m2, hR⟩ := convergedAt_src_file hconv hS
    simp only [updateEntry, hS, hR, filecmpCmp]
    by_cases hm : m = m2 <;> simp [hm]

theorem updateCommonRun_noop {src : FS} : ∀ (l : List RelPath) (rep : FS),
    (∀ p ∈ l, convergedAt src rep p ∧ (fsFind src p).isSome) →
    updateCommonRun src rep l = some (rep, [], false)
  | [], rep => fun _ => rfl
  | p :: rest, rep => by
    intro h
    obtain ⟨hconv, hsome⟩ := h p (List.mem_cons_self p rest)
    cases hS : fsFind src p with
    | none => rw [hS] at hsome; simp at hsome
    | some eS =>
      have h1 := updateEntry_noop hconv hS
      have h2 := updateCommonRun_noop rest rep
        (fun r hr => h r (List.mem_cons_of_mem p hr))
      rw [updateCommonRun, h1]
      simp [Option.bind, h2]

theorem cycleSteady_noop {src rep : FS}
    (hconv : ∀ p, convergedAt src rep p) :
    cycleSteady src rep = some (rep, [], false) := by
  have honlyRep : only_in_rep (fsPaths src) (fsPaths rep) = [] := by
    rw [List.eq_nil_iff_forall_not_mem]
    intro p hp
    obtain ⟨hpr, hps⟩ := mem_only_in_rep.mp hp
    have h1 := fsFind_isSome_of_mem hpr
    cases hR : fsFind rep p with
    | none => rw [hR] at h1; simp at h1
    | some e =>
      exact hps (mem_fsPaths_iff.mpr (convergedAt_rep_some (hconv p) hR))
  have honlySrc : only_in_src (fsPaths src) (fsPaths rep) = [] := by
    rw [List.eq_nil_iff_forall_not_mem]
    intro p hp
    obtain ⟨hps, hpr⟩ := mem_only_in_src.mp hp
    have h1 := fsFind_isSome_of_mem hps
    cases hS : fsFind src p with
    | none => rw [hS] at h1; simp at h1
    | some e =>
      have hsome : (fsFind rep p).isSome := by
        cases e with
        | dir => rw [convergedAt_src_dir (hconv p) hS]; rfl
        | file m c =>
          obtain ⟨m2, h2⟩ := convergedAt_src_file (hconv p) hS
          rw [h2]; rfl
        | symlink t => rw [convergedAt_src_symlink (hconv p) hS]; rfl
      exact hpr (mem_fsPaths_iff.mpr hsome)
  have hupd : updateCommonRun src rep
      (common_rel_paths (fsPaths src) (fsPaths rep)) =
      some (rep, [], false) := by
    apply updateCommonRun_noop
    intro p hp
    exact ⟨hconv p, fsFind_isSome_of_mem (mem_common_rel_paths.mp hp).1⟩
  simp only [cycleSteady, honlyRep, honlySrc, hupd, rm_files_in_set,
    sort_paths_set_by_sep, rmRun, createRun]
  simp [List.insertionSort, rmRun, createRun]

theorem removeAll_erase (fs : FS) (p : RelPath) (rest : List RelPath) :
    fsRemoveAll (fsErase fs p) rest = fsRemoveAll fs (p :: rest) := by
  unfold fsRemoveAll fsErase
  rw [List.filter_filter]
  apply List.filter_congr
  intro e _
  by_cases h1 : e.1 = p <;> by_cases h2 : e.1 ∈ rest <;> simp [h1, h2]

/-- Whenever the loop of rm_files_in_set completes, the resulting tree is the
input tree with exactly the processed paths removed. -/
theorem rmRun_some_eq : ∀ (l : List RelPath) (fs fs2 : FS),
    (rmRun fs l).2 = some fs2 → fs2 = fsRemoveAll fs l
  | [], fs, fs2 => by
    intro h
    simp [rmRun] at h
    rw [← h]
    simp [fsRemoveAll, List.filter_eq_self]
  | p :: rest, fs, fs2 => by
    intro h
    cases hf : fsFind fs p with
    | none => rw [rmRun, hf] at h; simp at h
    | some e =>
      cases e with
      | dir =>
        by_cases hd : fsHasDescendant fs p
        · rw [rmRun, hf] at h; simp [hd] at h
        · rw [rmRun, hf] at h
          simp [hd] at h
          rw [rmRun_some_eq rest (fsErase fs p) fs2 h, removeAll_erase]
      | file m c =>
        rw [rmRun, hf] at h
        simp at h
        rw [rmRun_some_eq rest (fsErase fs p) fs2 h, removeAll_erase]
      | symlink t =>
        rw [rmRun, hf] at h
        simp at h
        rw [rmRun_some_eq rest (fsErase fs p) fs2 h, removeAll_erase]

/-- A successful common-entry step at a source symlink leaves the
replica entry a symlink with the source target (it was either already
identical or recreated). -/
theorem updateEntry_symlink_shape {src rep : FS} {p : RelPath} {t : String}
    {st : FS × List Event × Bool}
    (hS : fsFind src p = some (Entry.symlink t))
    (h : updateEntry src rep p = some st) :
    fsFind st.1 p = some (Entry.symlink t) := by
  cases hR : fsFind rep p with
  | none => rw [updateEntry, hS, hR] at h; exact Option.noConfusion h
  | some eR =>
    cases eR with
    | dir => rw [updateEntry, hS, hR] at h; exact Option.noConfusion h
    | file m2 c2 => rw [updateEntry, hS, hR] at h; exact Option.noConfusion h
    | symlink t2 =>
      rw [updateEntry, hS, hR] at h
      by_cases ht : t2 = t
      · simp [ht] at h
        rw [← h]
        simpa [ht] using hR
      · simp [ht] at h
        rw [← h, fsFind_insert_self]

/-- A successful common-entry step at path `p` does not change the
replica entry at any other recorded source path. -/
theorem updateEntry_preserve_src {src rep : FS} {p q : RelPath}
    {st : FS × List Event × Bool} (hwfS : WFFS src)
    (h : updateEntry src rep p = some st) (hq : q ≠ p)
    {e : Entry} (hqs : fsFind src q = some e) :
    fsFind st.1 q = fsFind rep q := by
  cases hS : fsFind src p with
  | none => rw [updateEntry, hS] at h; exact Option.noConfusion h
  | some eS =>
    cases eS with
    | dir =>
      rw [updateEntry, hS] at h
      simp at h
      rw [← h]
    | symlink t =>
      cases hR : fsFind rep p with
      | none => rw [updateEntry, hS, hR] at h; exact Option.noConfusion h
      | some eR =>
        cases eR with
        | dir => rw [updateEntry, hS, hR] at h; exact Option.noConfusion h
        | file m2 c2 => rw [updateEntry, hS, hR] at h; exact Option.noConfusion h
        | symlink t2 =>
          rw [updateEntry, hS, hR] at h
          by_cases ht : t2 = t
          · simp [ht] at h; rw [← h]
          · simp [ht] at h
            rw [← h, fsFind_insert_ne _ _ hq, fsFind_erase_ne _ hq]
    | file m c =>
      cases hR : fsFind rep p with
      | none => rw [updateEntry, hS, hR] at h; simp [filecmpCmp] at h
      | some eR =>
        cases eR with
        | symlink t2 => rw [updateEntry, hS, hR] at h; simp [filecmpCmp] at h
        | file m2 c2 =>
          rw [updateEntry, hS, hR] at h
          simp only [filecmpCmp] at h
          by_cases h1 : c.length = c2.length ∧ m = m2
          · rw [if_pos h1] at h; simp at h; rw [← h]
          · rw [if_neg h1] at h
            by_cases h2 : c.length = c2.length
            · rw [if_pos h2] at h
              by_cases h3 : c = c2
              · simp [h3] at h; rw [← h]
              · simp [h3] at h; rw [← h, fsFind_insert_ne _ _ hq]
            · rw [if_neg h2] at h
              simp at h
              rw [← h, fsFind_insert_ne _ _ hq]
        | dir =>
          rw [updateEntry, hS, hR] at h
          have hne : p ≠ [] := hwfS.find_ne_nil hS
          simp only [filecmpCmp] at h
          cases hgl : p.getLast? with
          | none =>
            rw [List.getLast?_eq_none_iff] at hgl
            exact absurd hgl hne
          | some b =>
            simp only [hgl] at h
            have hqpb : q ≠ p ++ [b] := by
              intro hcon
              have hanc : strictAnc p q := by
                constructor
                · rw [hcon]
                  exact List.take_left p [b]
                · intro hpq
                  rw [hcon] at hpq
                  have := congrArg List.length hpq
                  simp at this
              have := hwfS.front_dir hqs hanc hne
              rw [hS] at this
              simp at this
            cases hpb : fsFind rep (p ++ [b]) with
            | none =>
              simp only [hpb] at h
              simp at h
              rw [← h, fsFind_insert_ne _ _ hqpb]
            | some epb =>
              cases epb with
              | dir => simp only [hpb] at h; exact Option.noConfusion h
              | symlink t3 => simp only [hpb] at h; exact Option.noConfusion h
              | file m3 c3 =>
                simp only [hpb] at h
                simp at h
                rw [← h, fsFind_insert_ne _ _ hqpb]

/-- Through a successful common-entry loop, a source symlink path ends
up carrying the source symlink in the replica if processed, and is left
untouched if not. -/
theorem updateCommonRun_symlink {src : FS} (hwfS : WFFS src) :
    ∀ (l : List RelPath) (rep : FS) (st : FS × List Event × Bool),
    updateCommonRun src rep l = some st → l.Nodup →
    ∀ (p : RelPath) (t : String), fsFind src p = some (Entry.symlink t) →
      (p ∈ l → fsFind st.1 p = some (Entry.symlink t)) ∧
      (p ∉ l → fsFind st.1 p = fsFind rep p)
  | [], rep, st => by
    intro h _ p t hS
    simp [updateCommonRun] at h
    constructor
    · intro hp; simp at hp
    · intro _; rw [← h]
  | q :: rest, rep, st => by
    intro h hnd p t hS
    cases h1 : updateEntry src rep q with
    | none => rw [updateCommonRun, h1] at h; exact Option.noConfusion h
    | some s1 =>
      cases h2 : updateCommonRun src s1.1 rest with
      | none =>
        rw [updateCommonRun, h1] at h
        simp [Option.bind, h2] at h
      | some s2 =>
        have hst : st.1 = s2.1 := by
          rw [updateCommonRun, h1] at h
          simp [Option.bind, h2] at h
          rw [← h]
        have ih := updateCommonRun_symlink hwfS rest s1.1 s2 h2
          (List.nodup_cons.mp hnd).2 p t hS
        constructor
        · intro hp
          rcases List.mem_cons.mp hp with rfl | hp2
          · have hnp : p ∉ rest := (List.nodup_cons.mp hnd).1
            rw [hst, ih.2 hnp]
            exact updateEntry_symlink_shape hS h1
          · rw [hst]
            exact ih.1 hp2
        · intro hp
          have hp1 : p ≠ q := fun hc => hp (hc ▸ List.mem_cons_self q rest)
          have hp2 : p ∉ rest := fun hc => hp (List.mem_cons_of_mem q hc)
          rw [hst, ih.2 hp2]
          exact updateEntry_preserve_src hwfS h1 hp1 hS

/-- A successful creation step writes exactly the source entry at its
path. -/
theorem createEntry_some_shape {src rep : FS} {p : RelPath}
    {st : FS × Event} (h : createEntry src rep p = some st) :
    ∃ eS : Entry, fsFind src p = some eS ∧ st.1 = fsInsert rep p eS := by
  cases hS : fsFind src p with
  | none => simp only [createEntry, hS] at h; exact Option.noConfusion h
  | some eS =>
    refine ⟨eS, rfl, ?_⟩
    cases eS with
    | dir =>
      simp only [createEntry, hS] at h
      by_cases hc : (parentOf p = [] ∨ fsFind rep (parentOf p) = some Entry.dir) ∧
          fsFind rep p = none
      · rw [if_pos hc] at h
        rw [← Option.some.inj h]
      · rw [if_neg hc] at h
        exact Option.noConfusion h
    | symlink t =>
      simp only [createEntry, hS] at h
      by_cases hc : (parentOf p = [] ∨ fsFind rep (parentOf p) = some Entry.dir) ∧
          fsFind rep p = none
      · rw [if_pos hc] at h
        rw [← Option.some.inj h]
      · rw [if_neg hc] at h
        exact Option.noConfusion h
    | file m c =>
      simp only [createEntry, hS] at h
      cases hR : fsFind rep p with
      | none =>
        simp only [hR] at h
        by_cases hc : parentOf p = [] ∨ fsFind rep (parentOf p) = some Entry.dir
        · rw [if_pos hc] at h
          rw [← Option.some.inj h]
        · rw [if_neg hc] at h
          exact Option.noConfusion h
      | some eR =>
        cases eR with
        | dir => simp only [hR] at h; exact Option.noConfusion h
        | symlink t2 => simp only [hR] at h; exact Option.noConfusion h
        | file m2 c2 =>
          simp only [hR] at h
          by_cases hc : parentOf p = [] ∨ fsFind rep (parentOf p) = some Entry.dir
          · rw [if_pos hc] at h
            rw [← Option.some.inj h]
          · rw [if_neg hc] at h
            exact Option.noConfusion h

/-- Through a successful creation loop, every processed path carries
exactly the source entry afterwards, and unprocessed paths are left
untouched. -/
theorem createRun_cond {src : FS} :
    ∀ (l : List RelPath) (rep : FS) (st : FS × List Event),
    createRun src rep l = some st → l.Nodup →
    ∀ p : RelPath,
      (p ∈ l → fsFind st.1 p = fsFind src p) ∧
      (p ∉ l → fsFind st.1 p = fsFind rep p)
  | [], rep, st => by
    intro h _ p
    simp [createRun] at h
    constructor
    · intro hp; simp at hp
    · intro _; rw [← h]
  | q :: rest, rep, st => by
    intro h hnd p
    cases h1 : createEntry src rep q with
    | none => rw [createRun, h1] at h; exact Option.noConfusion h
    | some s1 =>
      cases h2 : createRun src s1.1 rest with
      | none =>
        rw [createRun, h1] at h
        simp [Option.bind, h2] at h
      | some s2 =>
        have hst : st.1 = s2.1 := by
          rw [createRun, h1] at h
          simp [Option.bind, h2] at h
          rw [← h]
        have ih := createRun_cond rest s1.1 s2 h2 (List.nodup_cons.mp hnd).2 p
        obtain ⟨eS, hSq, hins⟩ := createEntry_some_shape h1
        constructor
        · intro hp
          rcases List.mem_cons.mp hp with rfl | hp2
          · have hnp : p ∉ rest := (List.nodup_cons.mp hnd).1
            rw [hst, ih.2 hnp, hins, fsFind_insert_self, hSq]
          · rw [hst]
            exact ih.1 hp2
        · intro hp
          have hp1 : p ≠ q := fun hc => hp (hc ▸ List.mem_cons_self q rest)
          have hp2 : p ∉ rest := fun hc => hp (List.mem_cons_of_mem q hc)
          rw [hst, ih.2 hp2, hins, fsFind_insert_ne _ _ hp1]

theorem mem_sort_paths {l : List RelPath} {b : Bool} {q : RelPath} :
    q ∈ sort_paths_set_by_sep l b ↔ q ∈ l := by
  cases b
  · rw [show sort_paths_set_by_sep l false = List.insertionSort sepLe l from rfl]
    exact (List.perm_insertionSort sepLe l).mem_iff
  · rw [show sort_paths_set_by_sep l true = List.insertionSort sepGe l from rfl]
    exact (List.perm_insertionSort sepGe l).mem_iff

theorem sort_paths_nodup {l : List RelPath} {b : Bool} (h : l.Nodup) :
    (sort_paths_set_by_sep l b).Nodup := by
  cases b
  · simpa [sort_paths_set_by_sep] using
      (List.perm_insertionSort sepLe l).nodup_iff.mpr h
  · simpa [sort_paths_set_by_sep] using
      (List.perm_insertionSort sepGe l).nodup_iff.mpr h

theorem convergedAt_isSome_iff {src rep : FS} {p : RelPath}
    (h : convergedAt src rep p) :
    ((fsFind rep p).isSome ↔ (fsFind src p).isSome) := by
  cases hS : fsFind src p with
  | none => rw [convergedAt_src_none h hS]
  | some e =>
    cases e with
    | dir => rw [convergedAt_src_dir h hS]
    | file m c =>
      obtain ⟨m2, h2⟩ := convergedAt_src_file h hS
      rw [h2]
      simp
    | symlink t => rw [convergedAt_src_symlink h hS]

/-- C1 counterexample: source holds regular file f with mtime 5 and
bytes "hello"; the replica holds f with the same mtime and size but
bytes "world".  The cycle completes without error and without touching
the replica (the shallow stat-signature fast path of filecmp.cmp reports
the files equal), so after an error-free cycle the content of a common
regular file differs from its source counterpart, refuting the claim. -/
theorem syncCycle_convergence_counterexample :
    syncCycle [(["f"], Entry.file 5 "hello")]
        (some [(["f"], Entry.file 5 "world")]) =
      some ([(["f"], Entry.file 5 "world")], [], false) ∧
    fsFind [(["f"], Entry.file 5 "hello")] ["f"] =
      some (Entry.file 5 "hello") ∧
    fsFind [(["f"], Entry.file 5 "world")] ["f"] =
      some (Entry.file 5 "world") ∧
    "world" ≠ "hello" :=
  ⟨by decide, rfl, rfl, by decide⟩

/-- C1 (amended): for every well-formed source tree and every starting
replica state (including absent) that is well-formed, kind-matched with
the source on common paths, and free of stat-signature collisions
(equal size and mtime imply equal bytes), after a synchronization cycle
that completes without error the relative-path set of the replica equals
that of the source, the content of every common regular file equals its
source counterpart, and the target of every common symlink equals its
source counterpart. -/
theorem syncCycle_convergence (src : FS) (rep : Option FS)
    (hwfS : WFFS src)
    (hcompat : ∀ r, rep = some r → WFFS r ∧ KindMatch src r ∧ SigHonest src r)
    (st : FS × List Event × Bool) (h : syncCycle src rep = some st) :
    (∀ p, p ∈ fsPaths st.1 ↔ p ∈ fsPaths src) ∧
    (∀ (p : RelPath) (m m2 : Nat) (c c2 : String),
      fsFind src p = some (Entry.file m c) →
      fsFind st.1 p = some (Entry.file m2 c2) → c2 = c) ∧
    (∀ (p : RelPath) (t t2 : String),
      fsFind src p = some (Entry.symlink t) →
      fsFind st.1 p = some (Entry.symlink t2) → t2 = t) := by
  obtain ⟨st2, hst2, hconv⟩ := syncCycle_ok rep hwfS hcompat
  rw [h] at hst2
  obtain rfl := Option.some.inj hst2
  refine ⟨?_, ?_, ?_⟩
  · intro p
    rw [mem_fsPaths_iff, mem_fsPaths_iff]
    exact convergedAt_isSome_iff (hconv p)
  · intro p m m2 c c2 hS hR
    obtain ⟨m3, h3⟩ := convergedAt_src_file (hconv p) hS
    rw [hR] at h3
    exact (Entry.file.injEq _ _ _ _).mp (Option.some.inj h3) |>.2
  · intro p t t2 hS hR
    have h3 := convergedAt_src_symlink (hconv p) hS
    rw [hR] at h3
    exact (Entry.symlink.injEq _ _).mp (Option.some.inj h3)

/-- Concrete source tree exercising all entry kinds for the witnesses. -/
def witSrc : FS :=
  [(["a"], Entry.dir), (["a", "b"], Entry.symlink "T"),
   (["c"], Entry.file 3 "xyz")]

/-- Concrete starting replica for the witnesses: a stale file to delete
and the directory already present. -/
def witRep : FS := [(["old"], Entry.file 9 "zz"), (["a"], Entry.dir)]

/-- The replica tree the cycle produces on the witness pair. -/
def syncCycleWitnessResult : FS :=
  [(["a", "b"], Entry.symlink "T"), (["c"], Entry.file 3 "xyz"),
   (["a"], Entry.dir)]

/-- Witness for syncCycle_convergence at a concrete source/replica
pair. -/
theorem syncCycle_convergence_witness :
    WFFS witSrc ∧
    (WFFS witRep ∧ KindMatch witSrc witRep ∧ SigHonest witSrc witRep) ∧
    ((∀ p, p ∈ fsPaths (syncCycleWitnessResult) ↔ p ∈ fsPaths witSrc) ∧
      (∀ (p : RelPath) (m m2 : Nat) (c c2 : String),
        fsFind witSrc p = some (Entry.file m c) →
        fsFind syncCycleWitnessResult p = some (Entry.file m2 c2) → c2 = c) ∧
      (∀ (p : RelPath) (t t2 : String),
        fsFind witSrc p = some (Entry.symlink t) →
        fsFind syncCycleWitnessResult p = some (Entry.symlink t2) → t2 = t)) :=
  ⟨by decide, ⟨by decide, by decide, by decide⟩,
    syncCycle_convergence witSrc (some witRep) (by decide)
      (fun r hr => by
        injection hr with hr2
        rw [← hr2]
        exact ⟨by decide, by decide, by decide⟩)
      (syncCycleWitnessResult,
        [Event.removingFile ["old"], Event.creatingFile ["c"],
         Event.creatingSymlink ["a", "b"] "T"], true)
      (by decide)⟩

/-- C7: running a second cycle immediately after a cycle that converged
the replica performs zero mutations: the cycle returns the replica tree
unchanged, emits no create/update/remove log line, and ends with
updated = false — the "already synchronized" no-change status. -/
theorem syncCycle_idempotent (src : FS) (rep : Option FS)
    (st : FS × List Event × Bool) (_h1 : syncCycle src rep = some st)
    (hconv : ∀ p, convergedAt src st.1 p) :
    syncCycle src (some st.1) = some (st.1, [], false) :=
  cycleSteady_noop hconv

/-- Witness for syncCycle_idempotent: bootstrap of a one-file source,
then a second cycle. -/
theorem syncCycle_idempotent_witness :
    syncCycle [(["f"], Entry.file 0 "hi")]
      (some [(["f"], Entry.file 0 "hi")]) =
    some ([(["f"], Entry.file 0 "hi")], [], false) :=
  syncCycle_idempotent [(["f"], Entry.file 0 "hi")] none
    ([(["f"], Entry.file 0 "hi")],
      bootstrapEvents [(["f"], Entry.file 0 "hi")], true)
    rfl (fun _ => convergedAt_of_find_eq rfl)

/-- C10: when the source-side and replica-side entries of a common path
are regular files with equal stat signature (both regular, equal size,
equal mtime), the default shallow filecmp.cmp reports them equal
without reading content, so the common-entry step performs no overwrite
and emits no log line even when the bytes differ. -/
theorem filecmp_shallow_fastpath (src rep : FS) (p : RelPath)
    (m : Nat) (c c2 : String)
    (hS : fsFind src p = some (Entry.file m c))
    (hR : fsFind rep p = some (Entry.file m c2))
    (hlen : c.length = c2.length) :
    filecmpCmp m c (fsFind rep p) = some true ∧
    updateEntry src rep p = some (rep, [], false) := by
  constructor
  · rw [hR]
    simp [filecmpCmp, hlen]
  · simp only [updateEntry, hS, hR, filecmpCmp]
    simp [hlen]

/-- Witness for filecmp_shallow_fastpath: equal size and mtime, bytes
differ, no update happens. -/
theorem filecmp_shallow_fastpath_witness :
    fsFind [(["f"], Entry.file 5 "hello")] ["f"] =
      some (Entry.file 5 "hello") ∧
    fsFind [(["f"], Entry.file 5 "world")] ["f"] =
      some (Entry.file 5 "world") ∧
    ("hello" : String).length = ("world" : String).length ∧
    (filecmpCmp 5 "hello" (fsFind [(["f"], Entry.file 5 "world")] ["f"]) =
      some true ∧
     updateEntry [(["f"], Entry.file 5 "hello")]
        [(["f"], Entry.file 5 "world")] ["f"] =
      some ([(["f"], Entry.file 5 "world")], [], false)) :=
  ⟨rfl, rfl, by decide,
    filecmp_shallow_fastpath [(["f"], Entry.file 5 "hello")]
      [(["f"], Entry.file 5 "world")] ["f"] 5 "hello" "world"
      rfl rfl (by decide)⟩

/-- C8: every source symlink appears in the replica after a successful
cycle as a symlink with the identical target, never a dereferenced
copy — through all three creation paths: the bootstrap copytree
(symlinks=True), the common-entry target-mismatch recreation, and the
source-only creation (both with copy2(follow_symlinks=False)). -/
theorem syncCycle_symlink_fidelity (src : FS) (rep : Option FS)
    (hwfS : WFFS src) (st : FS × List Event × Bool)
    (h : syncCycle src rep = some st)
    (p : RelPath) (t : String)
    (hS : fsFind src p = some (Entry.symlink t)) :
    fsFind st.1 p = some (Entry.symlink t) := by
  cases rep with
  | none =>
    simp only [syncCycle] at h
    have h2 := Option.some.inj h
    rw [← h2]
    exact hS
  | some r =>
    simp only [syncCycle] at h
    cases hrm : (rm_files_in_set r (only_in_rep (fsPaths src) (fsPaths r))).2 with
    | none => simp [cycleSteady, hrm] at h
    | some rep1 =>
      simp only [cycleSteady, hrm] at h
      cases hup : updateCommonRun src rep1
          (common_rel_paths (fsPaths src) (fsPaths r)) with
      | none => simp [hup] at h
      | some st2 =>
        obtain ⟨rep2, ev2, u2⟩ := st2
        simp only [hup] at h
        cases hcr : createRun src rep2
            (sort_paths_set_by_sep
              (only_in_src (fsPaths src) (fsPaths r)) false) with
        | none => simp [hcr] at h
        | some st3 =>
          obtain ⟨rep3, ev3⟩ := st3
          simp only [hcr] at h
          have hst1 : st.1 = rep3 := by rw [← Option.some.inj h]
          have hpsrc : p ∈ fsPaths src := fsFind_eq_some_mem hS
          have hndos : (sort_paths_set_by_sep
              (only_in_src (fsPaths src) (fsPaths r)) false).Nodup :=
            sort_paths_nodup (hwfS.1.filter _)
          have hupdlem := updateCommonRun_symlink hwfS
            (common_rel_paths (fsPaths src) (fsPaths r)) rep1
            (rep2, ev2, u2) hup (hwfS.1.filter _) p t hS
          have hcrlem := createRun_cond
            (sort_paths_set_by_sep
              (only_in_src (fsPaths src) (fsPaths r)) false)
            rep2 (rep3, ev3) hcr hndos p
          by_cases hpr : p ∈ fsPaths r
          · have hc : p ∈ common_rel_paths (fsPaths src) (fsPaths r) :=
              mem_common_rel_paths.mpr ⟨hpsrc, hpr⟩
            have hnos : p ∉ sort_paths_set_by_sep
                (only_in_src (fsPaths src) (fsPaths r)) false := by
              intro hcon
              exact (mem_only_in_src.mp (mem_sort_paths.mp hcon)).2 hpr
            have e1 : fsFind rep3 p = fsFind rep2 p := hcrlem.2 hnos
            have e2 : fsFind rep2 p = some (Entry.symlink t) := hupdlem.1 hc
            rw [hst1, e1]
            exact e2
          · have hos : p ∈ sort_paths_set_by_sep
                (only_in_src (fsPaths src) (fsPaths r)) false :=
              mem_sort_paths.mpr (mem_only_in_src.mpr ⟨hpsrc, hpr⟩)
            have e1 : fsFind rep3 p = fsFind src p := hcrlem.1 hos
            rw [hst1, e1]
            exact hS

/-- Witness for syncCycle_symlink_fidelity at the concrete pair. -/
theorem syncCycle_symlink_fidelity_witness :
    WFFS witSrc ∧
    fsFind witSrc ["a", "b"] = some (Entry.symlink "T") ∧
    fsFind syncCycleWitnessResult ["a", "b"] = some (Entry.symlink "T") :=
  ⟨by decide, rfl,
    syncCycle_symlink_fidelity witSrc (some witRep) (by decide)
      (syncCycleWitnessResult,
        [Event.removingFile ["old"], Event.creatingFile ["c"],
         Event.creatingSymlink ["a", "b"] "T"], true)
      (by decide) ["a", "b"] "T" rfl⟩

/-- C4: rm_files_in_set processes the set deep-first and removes each
path according to its kind at removal time (a real directory via rmdir,
a symlink via unlink, anything else via unlink) — as its definition
shows — and for every duplicate-free set of nonempty recorded paths
that contains every replica entry lying strictly below each of its
directories, the run completes: every directory was empty when its
rmdir ran (the nonempty-directory branch aborts the run), and the
result is the tree with exactly the set removed. -/
theorem rm_files_in_set_safe (fs : FS) (setPaths : List RelPath)
    (hnd : setPaths.Nodup)
    (hne : ∀ p ∈ setPaths, p ≠ [])
    (hmem : ∀ p ∈ setPaths, p ∈ fsPaths fs)
    (hclosed : ∀ p ∈ setPaths, fsFind fs p = some Entry.dir →
      ∀ q ∈ fsPaths fs, strictAnc p q → q ∈ setPaths) :
    (rm_files_in_set fs setPaths).2 = some (fsRemoveAll fs setPaths) ∧
    ∀ q, fsFind (fsRemoveAll fs setPaths) q =
      if q ∈ setPaths then none else fsFind fs q :=
  rm_files_in_set_ok fs setPaths hnd hne hmem hclosed

/-- Concrete replica tree for the rm_files_in_set witness: a directory,
its child file, and an unrelated file. -/
def demoRmFs : FS :=
  [(["d"], Entry.dir), (["d", "x"], Entry.file 0 "a"),
   (["k"], Entry.file 1 "b")]

/-- Concrete replica-only set for the rm_files_in_set witness. -/
def demoRmSet : List RelPath := [["d"], ["d", "x"]]

/-- Witness for rm_files_in_set_safe at the concrete replica above. -/
theorem rm_files_in_set_safe_witness :
    demoRmSet.Nodup ∧ (∀ p ∈ demoRmSet, p ≠ []) ∧
    (∀ p ∈ demoRmSet, p ∈ fsPaths demoRmFs) ∧
    (rm_files_in_set demoRmFs demoRmSet).2 =
      some (fsRemoveAll demoRmFs demoRmSet) :=
  ⟨by decide, by decide, by decide,
    (rm_files_in_set_safe demoRmFs demoRmSet (by decide) (by decide)
      (by decide) (by decide)).1⟩

/-- The Python exception kinds relevant to the startup checks: the kind
the code raises and the kinds the specification names. -/
inductive PyExc where
  | fileExistsError
  | fileNotFoundError
  | notADirectoryError
deriving DecidableEq, Repr

/-- The startup validation of main (main.py:153-161): if the source
root does not exist, raise FileExistsError("Source directory does not
exist"); if it is not a directory (Path.is_dir, which follows
symlinks), raise FileExistsError with the same message.  Both checks
run once, before the loop; the state of the replica root is never
examined. -/
def startupCheck (srcExists srcIsDir _repExists _repIsDir : Bool) :
    Except PyExc Unit :=
  if !srcExists then Except.error PyExc.fileExistsError
  else if !srcIsDir then Except.error PyExc.fileExistsError
  else Except.ok ()

instance : DecidableEq (Except PyExc Unit) := fun a b =>
  match a, b with
  | Except.error x, Except.error y =>
    if h : x = y then isTrue (by rw [h])
    else isFalse (fun hc => h (by injection hc))
  | Except.ok x, Except.ok y => isTrue (by cases x; cases y; rfl)
  | Except.error _, Except.ok _ => isFalse (fun hc => Except.noConfusion hc)
  | Except.ok _, Except.error _ => isFalse (fun hc => Except.noConfusion hc)

/-- C5: the code raises FileExistsError — not the NotFoundError
and NotADirectoryError — in both failure cases; the outcome never
depends on the state of the replica root, and the process enters the loop
exactly when both source checks pass. -/
theorem startup_check_behavior :
    startupCheck false true true true = Except.error PyExc.fileExistsError ∧
    startupCheck true false true true = Except.error PyExc.fileExistsError ∧
    PyExc.fileExistsError ≠ PyExc.fileNotFoundError ∧
    PyExc.fileExistsError ≠ PyExc.notADirectoryError ∧
    (∀ e d r1 r2 r3 r4 : Bool,
      startupCheck e d r1 r2 = startupCheck e d r3 r4) ∧
    (∀ e d r1 r2 : Bool,
      startupCheck e d r1 r2 = Except.ok () ↔ (e = true ∧ d = true)) := by
  decide

/-- Concrete one-file source of the bootstrap logging scenario. -/
def bootDemoSrc : FS := [(["file.txt"], Entry.file 0 "hello")]

/-- C6 counterexample: on the scenario source {file.txt: "hello"} with
the replica absent, the bootstrap branch logs "Creating directory" for
the replica root itself (the empty relative path, logged at
main.py:181 before copytree) — the claim says no such line is
logged. -/
theorem bootstrap_root_log_counterexample :
    syncCycle bootDemoSrc none =
      some (bootDemoSrc,
        [Event.creatingDir [], Event.creatingFile ["file.txt"]], true) ∧
    Event.creatingDir [] ∈ bootstrapEvents bootDemoSrc :=
  ⟨by decide, by decide⟩

/-- C6 (amended): on the scenario source {file.txt: "hello"} with the
replica absent, after cycle 1 the replica holds file.txt with identical
content, the log holds exactly one "Creating file" line for file.txt
and exactly one "Creating directory" line — for the replica root
itself, logged before the wholesale copy — per-entry events are
shallow-first, and steps 2-4 are skipped (the cycle returns directly
after the copy). -/
theorem bootstrap_scenario_amended :
    syncCycle bootDemoSrc none =
      some (bootDemoSrc,
        [Event.creatingDir [], Event.creatingFile ["file.txt"]], true) ∧
    fsFind bootDemoSrc ["file.txt"] = some (Entry.file 0 "hello") ∧
    (bootstrapEvents bootDemoSrc).count (Event.creatingFile ["file.txt"]) = 1 ∧
    (bootstrapEvents bootDemoSrc).count (Event.creatingDir []) = 1 := by
  decide

/-- C9: evaluating rm_files_in_set where path x is not a regular file
at removal time (here: recorded nowhere, so unlink raises): the failure
of the file-deletion branch ("Removing file") is logged with the
literal message "Failed to delete symlink" (main.py:111) — misnaming
the failed operation — and is then re-raised: the run aborts (none) and
the following path y is never processed. -/
theorem rm_error_log_mislabel :
    rm_files_in_set ([] : FS) [["x"], ["y"]] =
      ([Event.removingFile ["x"], Event.errFailedDeleteSymlink ["x"]],
        none) := by
  decide

/-- Direct children of directory `d` among the recorded paths: the
nonempty relative paths whose parent is `d`. -/
def childrenOf (fs : FS) (d : RelPath) : List RelPath :=
  (fsPaths fs).filter (fun p => decide (p ≠ []) && decide (parentOf p = d))

/-- Length of the longest recorded path, used as recursion fuel for the
tree walk. -/
def maxPathLen (fs : FS) : Nat :=
  (fsPaths fs).foldr (fun p acc => max p.length acc) 0

/-- iter_dir (main.py:55-67), fuel-bounded: for every entry of the
directory `d`, record its relative path, and when it is a real
directory (not a symlink) recurse into it, recording all descendant
paths too.  The fuel only bounds the recursion depth; for a well-formed
tree maxPathLen is enough. -/
def iter_dir_aux (fs : FS) : Nat → RelPath → List RelPath
  | 0, _ => []
  | n + 1, d =>
    (childrenOf fs d).flatMap (fun c =>
      c :: (if fsFind fs c = some Entry.dir then iter_dir_aux fs n c else []))

/-- iter_dir on the root of the tree. -/
def iter_dir (fs : FS) : List RelPath :=
  iter_dir_aux fs (maxPathLen fs) []

theorem mem_childrenOf {fs : FS} {d c : RelPath} :
    c ∈ childrenOf fs d ↔ c ∈ fsPaths fs ∧ c ≠ [] ∧ parentOf c = d := by
  simp [childrenOf, List.mem_filter]

theorem length_le_foldr_max {p : RelPath} : ∀ l : List RelPath, p ∈ l →
    p.length ≤ l.foldr (fun q acc => max q.length acc) 0
  | [], h => by simp at h
  | hd :: tl, h => by
    rcases List.mem_cons.mp h with rfl | h2
    · simp
    · simp only [List.foldr]
      exact Nat.le_trans (length_le_foldr_max tl h2) (Nat.le_max_right _ _)

theorem length_le_maxPathLen {fs : FS} {p : RelPath}
    (h : p ∈ fsPaths fs) : p.length ≤ maxPathLen fs :=
  length_le_foldr_max (fsPaths fs) h

theorem child_length {c d : RelPath} (hne : c ≠ []) (hpar : parentOf c = d) :
    c.length = d.length + 1 := by
  have h1 := congrArg List.length hpar
  rw [parentOf_length] at h1
  have h2 : 1 ≤ c.length := by
    cases c with
    | nil => exact absurd rfl hne
    | cons x xs => simp
  omega

theorem iter_dir_aux_mem {fs : FS} (hwf : WFFS fs) :
    ∀ (n : Nat) (d p : RelPath),
      p ∈ iter_dir_aux fs n d ↔
        (p ∈ fsPaths fs ∧ d.length < p.length ∧ p.take d.length = d ∧
          p.length ≤ d.length + n)
  | 0, d, p => by
    simp only [iter_dir_aux, List.not_mem_nil, false_iff]
    rintro ⟨_, h2, _, h4⟩
    omega
  | n + 1, d, p => by
    rw [iter_dir_aux, List.mem_flatMap]
    constructor
    · rintro ⟨c, hc, hp⟩
      obtain ⟨hcmem, hcne, hcpar⟩ := mem_childrenOf.mp hc
      have hclen : c.length = d.length + 1 := child_length hcne hcpar
      have hctake : c.take d.length = d := by
        rw [← hcpar, parentOf, List.dropLast_eq_take, hclen]
        simp
      rcases List.mem_cons.mp hp with rfl | hp2
      · exact ⟨hcmem, by omega, hctake, by omega⟩
      · by_cases hdir : fsFind fs c = some Entry.dir
        · rw [if_pos hdir] at hp2
          obtain ⟨h1, h2, h3, h4⟩ := (iter_dir_aux_mem hwf n c p).mp hp2
          refine ⟨h1, by omega, ?_, by omega⟩
          have ht : p.take d.length = (p.take c.length).take d.length := by
            rw [List.take_take, Nat.min_eq_left (by omega)]
          rw [ht, h3, hctake]
        · rw [if_neg hdir] at hp2
          simp at hp2
    · rintro ⟨h1, h2, h3, h4⟩
      have hlen : (p.take (d.length + 1)).length = d.length + 1 := by
        rw [List.length_take]
        omega
      have hcne : p.take (d.length + 1) ≠ [] := by
        intro hc
        have := congrArg List.length hc
        rw [hlen] at this
        simp at this
      have hcpar : parentOf (p.take (d.length + 1)) = d := by
        rw [parentOf, List.dropLast_eq_take, hlen]
        simp only [Nat.add_sub_cancel]
        rw [List.take_take, Nat.min_eq_left (by omega)]
        exact h3
      have hcmemdir : d.length + 1 ≠ p.length →
          p.take (d.length + 1) ∈ fsPaths fs ∧
          fsFind fs (p.take (d.length + 1)) = some Entry.dir := by
        intro hceq
        have hs := fsFind_isSome_of_mem h1
        cases hf : fsFind fs p with
        | none => rw [hf] at hs; simp at hs
        | some e =>
          have hanc : strictAnc (p.take (d.length + 1)) p := by
            constructor
            · rw [hlen]
            · intro hcon
              have := congrArg List.length hcon
              rw [hlen] at this
              omega
          have hdir := hwf.front_dir hf hanc hcne
          exact ⟨fsFind_eq_some_mem hdir, hdir⟩
      have hcmem : p.take (d.length + 1) ∈ fsPaths fs := by
        by_cases hceq : d.length + 1 = p.length
        · rw [List.take_of_length_le (by omega)]
          exact h1
        · exact (hcmemdir hceq).1
      refine ⟨p.take (d.length + 1),
        mem_childrenOf.mpr ⟨hcmem, hcne, hcpar⟩, ?_⟩
      by_cases hceq : d.length + 1 = p.length
      · have : p.take (d.length + 1) = p := List.take_of_length_le (by omega)
        rw [this]
        exact List.mem_cons_self _ _
      · apply List.mem_cons_of_mem
        rw [if_pos (hcmemdir hceq).2]
        apply (iter_dir_aux_mem hwf n (p.take (d.length + 1)) p).mpr
        refine ⟨h1, by omega, ?_, by omega⟩
        rw [hlen]
  termination_by n => n

/-- The recursive walk of iter_dir on a well-formed tree visits exactly
the recorded relative paths: the snapshot used by the cycle model
(fsPaths) is what iter_dir returns. -/
theorem iter_dir_eq_fsPaths {fs : FS} (hwf : WFFS fs) :
    ∀ p, p ∈ iter_dir fs ↔ p ∈ fsPaths fs := by
  intro p
  rw [iter_dir, iter_dir_aux_mem hwf]
  constructor
  · rintro ⟨h1, _, _, _⟩
    exact h1
  · intro h1
    have hne : p ≠ [] := hwf.mem_ne_nil h1
    have hlen : 1 ≤ p.length := by
      cases p with
      | nil => exact absurd rfl hne
      | cons x xs => simp
    exact ⟨h1, by simpa using hlen, rfl, by
      simpa using length_le_maxPathLen h1⟩

end SyncFolders
